import Mathlib

/-!
# Deep Dependency Graph model: a verification development

A shallow embedding of the DDG path-to-graph transformation pipeline of
jaeger-ui (`model/ddg/transformDdgData.tsx`, `model/ddg/PathElem.tsx`, and the
`GraphModel` in `model/ddg/GraphModel/index.tsx`), together with proofs of the
ordering, connectivity, determinism and codec properties the design relies on.

Conventions of the embedding:
* JS objects become Lean structures; object identity of a `PathElem` is
  captured by the pair `(pathId, memberIdx)`, which is unique inside one
  transform result.
* JS `Map`s become association lists looked up with `alookup` and updated with
  `aset` (replace-or-append, mirroring `Map.set`).
* Thrown exceptions become `Except DdgError`.
* JS string comparison becomes the lexicographic order on Lean strings, and
  `Array.prototype.sort` (stable) becomes `List.insertionSort`.
-/

/-- Error taxonomy of the DDG core (spec section 7). -/
inductive DdgError where
  | MissingFocalNode
  | VisibilityIndexAlreadySet
  | VisibilityIndexUnset
  | DisconnectedPathElem
  | VertexWithoutPathElems
  | PathElemAbsent
  | MalformedVisibilityToken
deriving DecidableEq, Repr

/-- One entry of a raw payload path: `{ service, operation }` (types.tsx). -/
structure TDdgPayloadEntry where
  service : String
  operation : String
deriving DecidableEq, Repr

/-- A payload is an ordered list of paths, each an ordered list of entries. -/
abbrev TDdgPayload := List (List TDdgPayloadEntry)

/-- The focal selector `{ service, operation? }` passed to the transform. -/
structure FocalSelector where
  service : String
  operation : Option String
deriving DecidableEq, Repr

/-- `entry matches the focal selector`: the guard of transformDdgData.tsx
lines 80-86 (`serviceName === focalService && (focalOperation == null ||
operationName === focalOperation)`). -/
def matchesFocal (focal : FocalSelector) (e : TDdgPayloadEntry) : Bool :=
  e.service == focal.service &&
    (focal.operation.isNone || focal.operation == some e.operation)

/-- `stringifyEntry` of transformDdgData.tsx line 26: service and operation
joined by a vertical tab. -/
def stringifyEntry (e : TDdgPayloadEntry) : String :=
  e.service ++ "\x0B" ++ e.operation

/-- The comparison value of a path used by the sort in transformDdgData.tsx
lines 38-52: the stringified entries joined by `,` (the default separator of
`Array.prototype.join`). -/
def pathCompareValue (p : List TDdgPayloadEntry) : String :=
  String.intercalate "," (p.map stringifyEntry)

/-- Lexicographic comparison of char lists: the JS `<`/`>` string comparison
of the sort comparator of transformDdgData.tsx lines 49-51. -/
def charListLE : List Char → List Char → Bool
  | [], _ => true
  | _ :: _, [] => false
  | a :: as, b :: bs =>
    if a < b then true
    else if b < a then false
    else charListLE as bs

theorem charListLE_cons_iff {a b : Char} {as bs : List Char} :
    charListLE (a :: as) (b :: bs) = true ↔ a < b ∨ (a = b ∧ charListLE as bs = true) := by
  rw [show charListLE (a :: as) (b :: bs)
      = (if a < b then true else if b < a then false else charListLE as bs) from rfl]
  by_cases hab : a < b
  · simp [hab]
  · by_cases hba : b < a
    · rw [if_neg hab, if_pos hba]
      constructor
      · intro h; cases h
      · rintro (h | ⟨h, _⟩)
        · exact absurd h hab
        · exact absurd hba (by rw [h]; exact lt_irrefl b)
    · have heq : a = b := le_antisymm (le_of_not_lt hba) (le_of_not_lt hab)
      rw [if_neg hab, if_neg hba]
      constructor
      · intro ht; exact Or.inr ⟨heq, ht⟩
      · rintro (h | ⟨_, ht⟩)
        · exact absurd h hab
        · exact ht

theorem charListLE_refl : ∀ l : List Char, charListLE l l = true
  | [] => rfl
  | a :: as => charListLE_cons_iff.mpr (Or.inr ⟨rfl, charListLE_refl as⟩)

theorem charListLE_total : ∀ l₁ l₂ : List Char,
    charListLE l₁ l₂ = true ∨ charListLE l₂ l₁ = true
  | [], _ => Or.inl rfl
  | _ :: _, [] => Or.inr rfl
  | a :: as, b :: bs => by
    rcases lt_trichotomy a b with h | h | h
    · exact Or.inl (charListLE_cons_iff.mpr (Or.inl h))
    · rcases charListLE_total as bs with ht | ht
      · exact Or.inl (charListLE_cons_iff.mpr (Or.inr ⟨h, ht⟩))
      · exact Or.inr (charListLE_cons_iff.mpr (Or.inr ⟨h.symm, ht⟩))
    · exact Or.inr (charListLE_cons_iff.mpr (Or.inl h))

theorem charListLE_trans : ∀ l₁ l₂ l₃ : List Char,
    charListLE l₁ l₂ = true → charListLE l₂ l₃ = true → charListLE l₁ l₃ = true
  | [], _, _, _, _ => rfl
  | _ :: _, [], _, h₁, _ => by cases h₁
  | _ :: _, _ :: _, [], _, h₂ => by cases h₂
  | a :: as, b :: bs, c :: cs, h₁, h₂ => by
    rcases charListLE_cons_iff.mp h₁ with hab | ⟨hab, hta⟩ <;>
      rcases charListLE_cons_iff.mp h₂ with hbc | ⟨hbc, htb⟩
    · exact charListLE_cons_iff.mpr (Or.inl (lt_trans hab hbc))
    · exact charListLE_cons_iff.mpr (Or.inl (hbc ▸ hab))
    · exact charListLE_cons_iff.mpr (Or.inl (hab ▸ hbc))
    · exact charListLE_cons_iff.mpr
        (Or.inr ⟨hab.trans hbc, charListLE_trans as bs cs hta htb⟩)

theorem charListLE_antisymm : ∀ l₁ l₂ : List Char,
    charListLE l₁ l₂ = true → charListLE l₂ l₁ = true → l₁ = l₂
  | [], [], _, _ => rfl
  | [], _ :: _, _, h₂ => by cases h₂
  | _ :: _, [], h₁, _ => by cases h₁
  | a :: as, b :: bs, h₁, h₂ => by
    rcases charListLE_cons_iff.mp h₁ with hab | ⟨hab, hta⟩ <;>
      rcases charListLE_cons_iff.mp h₂ with hba | ⟨hba, htb⟩
    · exact absurd hba (lt_asymm hab)
    · rw [hba] at hab
      exact absurd hab (lt_irrefl a)
    · rw [hab] at hba
      exact absurd hba (lt_irrefl b)
    · rw [hab, charListLE_antisymm as bs hta htb]

/-- The sort relation of transformDdgData.tsx lines 38-52: compare paths by
their comparison value (JS string comparison, modelled as lexicographic
code-point order). -/
def pathLE (a b : List TDdgPayloadEntry) : Prop :=
  charListLE (pathCompareValue a).data (pathCompareValue b).data = true

instance : DecidableRel pathLE := fun a b =>
  inferInstanceAs
    (Decidable (charListLE (pathCompareValue a).data (pathCompareValue b).data = true))

instance : IsTotal (List TDdgPayloadEntry) pathLE :=
  ⟨fun a b => charListLE_total (pathCompareValue a).data (pathCompareValue b).data⟩

instance : IsTrans (List TDdgPayloadEntry) pathLE :=
  ⟨fun _ _ _ hab hbc => charListLE_trans _ _ _ hab hbc⟩

/-- A single occurrence of an operation at a specific offset within a specific
path (PathElem.tsx).  `pathId` is the position of the owning path in the sorted
path list and stands for the `memberOf` back-reference; `(pathId, memberIdx)`
captures the object identity of the PathElem.  `service` and `operation` are
the names reachable through `operation.service.name` / `operation.name`. -/
structure PathElem where
  pathId : Nat
  memberIdx : Nat
  focalIdx : Nat
  service : String
  operation : String
deriving DecidableEq, Repr

/-- `get distance()` of PathElem.tsx: `memberIdx - memberOf.focalIdx`. -/
def PathElem.distance (e : PathElem) : Int :=
  (e.memberIdx : Int) - (e.focalIdx : Int)

/-- A parsed path: `{ focalIdx, members }` (types.tsx). -/
structure TDdgPath where
  focalIdx : Nat
  members : List PathElem
deriving DecidableEq, Repr

/-- The members of one path, built positionally: member `i` of path `pathId`
is the PathElem for entry `i` (transformDdgData.tsx lines 57-91). -/
def mkMembers (pathId focalIdx : Nat) : Nat → List TDdgPayloadEntry → List PathElem
  | _, [] => []
  | i, en :: rest =>
    ⟨pathId, i, focalIdx, en.service, en.operation⟩ :: mkMembers pathId focalIdx (i + 1) rest

/-- Build one TDdgPath from a payload path, locating `focalIdx` as the first
offset whose entry matches the focal selector (transformDdgData.tsx lines
53-95).  The caller has already ruled out the `MissingFocalNode` throw, so a
missing match never reaches the `getD`. -/
def mkPath (focal : FocalSelector) (pathId : Nat) (entries : List TDdgPayloadEntry) : TDdgPath :=
  let focalIdx := (entries.findIdx? (matchesFocal focal)).getD 0
  { focalIdx := focalIdx, members := mkMembers pathId focalIdx 0 entries }

/-- Build all paths, numbering them by their position in the sorted list. -/
def mkPaths (focal : FocalSelector) : Nat → List (List TDdgPayloadEntry) → List TDdgPath
  | _, [] => []
  | i, p :: ps => mkPath focal i p :: mkPaths focal (i + 1) ps

/-- All PathElems of all paths in creation order: paths in sorted order, and
within a path in member order.  This is also the order in which the
`distanceToPathElems` buckets of transformDdgData.tsx lines 99-106 are
filled. -/
def allElems (paths : List TDdgPath) : List PathElem :=
  paths.flatMap (·.members)

/-- `distanceToPathElems.get d`: the PathElems of distance `d` in creation
order (transformDdgData.tsx lines 99-106). -/
def elemsAtDistance (l : List PathElem) (d : Int) : List PathElem :=
  l.filter (fun e => e.distance == d)

/-- The sequence of distance tiers visited by the index-assignment loop of
transformDdgData.tsx lines 122-127: iteration `i` reads tier `-i`
(`downstream--`) and then tier `i + 1` (`upstream++`), so the tiers are
visited in the order `0, 1, -1, 2, -2, 3, -3, ...`.  `n + 1` iterations cover
every tier that can be non-empty when `n` PathElems exist. -/
def tierSeq (n : Nat) : List Int :=
  (List.range (n + 1)).flatMap (fun i => [-(i : Int), (i : Int) + 1])

/-- The PathElems in visibility-index order: the concatenation of the distance
tiers in the order the assignment loop of transformDdgData.tsx lines 111-127
visits them.  PathElem number `i` of this list receives visibility index `i`
(`visIdxToPathElem.set(visIdx, pathElem); pathElem.visibilityIdx = visIdx++`). -/
def visOrder (l : List PathElem) : List PathElem :=
  (tierSeq l.length).flatMap (elemsAtDistance l)

/-- The transform result `{ paths, visIdxToPathElem }` (types.tsx TDdgModel;
the service registry deduplicates `Service`/`Operation` objects only and its
content is recoverable from `paths`, so it is not carried separately). -/
structure TDdgModel where
  paths : List TDdgPath
  visIdxToPathElem : List PathElem
deriving DecidableEq, Repr

/-- `transformDdgData` (transformDdgData.tsx lines 28-135): sort the payload
by `pathCompareValue` with a stable sort, fail with `MissingFocalNode` if any
path lacks a focal match, otherwise build the paths and assign visibility
indices tier by tier. -/
def transformDdgData (payload : TDdgPayload) (focal : FocalSelector) :
    Except DdgError TDdgModel :=
  let sorted := payload.insertionSort pathLE
  if sorted.all (fun p => (p.findIdx? (matchesFocal focal)).isSome) then
    let paths := mkPaths focal 0 sorted
    .ok { paths := paths, visIdxToPathElem := visOrder (allElems paths) }
  else
    .error .MissingFocalNode

/-- The visibility index of a PathElem inside a model: its position in
`visIdxToPathElem` (the value `setIdx` stored into the write-once
`visibilityIdx` field). -/
def TDdgModel.visibilityIdxOf (m : TDdgModel) (e : PathElem) : Nat :=
  m.visIdxToPathElem.indexOf e

/-- `get focalSideNeighbor()` of PathElem.tsx: `null` at the focal occurrence,
otherwise the member one step closer to the focal occurrence
(`members[memberIdx - distance / |distance|]`). -/
def focalSideNeighbor (paths : List TDdgPath) (e : PathElem) : Option PathElem :=
  if e.distance = 0 then none
  else
    match paths.get? e.pathId with
    | none => none
    | some p => p.members.get? (if e.distance > 0 then e.memberIdx - 1 else e.memberIdx + 1)

instance {ε α : Type _} [DecidableEq ε] [DecidableEq α] : DecidableEq (Except ε α) := fun x y =>
  match x, y with
  | .ok a, .ok b => decidable_of_iff (a = b) (by simp)
  | .error a, .error b => decidable_of_iff (a = b) (by simp)
  | .ok _, .error _ => isFalse (by simp)
  | .error _, .ok _ => isFalse (by simp)

/-! ## Structural facts about the transform's paths -/

theorem mkMembers_get? (pid f : Nat) :
    ∀ (l : List TDdgPayloadEntry) (i j : Nat),
      (mkMembers pid f i l).get? j
        = (l.get? j).map (fun en => ⟨pid, i + j, f, en.service, en.operation⟩) := by
  intro l
  induction l with
  | nil => intro i j; simp [mkMembers]
  | cons en rest ih =>
    intro i j
    cases j with
    | zero => simp [mkMembers]
    | succ j' =>
      simp only [mkMembers, List.get?_cons_succ, ih (i + 1) j']
      cases rest.get? j' <;> simp [Nat.add_assoc, Nat.add_comm 1 j']

theorem mkMembers_length (pid f : Nat) :
    ∀ (l : List TDdgPayloadEntry) (i : Nat), (mkMembers pid f i l).length = l.length := by
  intro l
  induction l with
  | nil => intro i; rfl
  | cons en rest ih => intro i; simp [mkMembers, ih]

theorem mkPaths_get? (focal : FocalSelector) :
    ∀ (ps : List (List TDdgPayloadEntry)) (base j : Nat),
      (mkPaths focal base ps).get? j = (ps.get? j).map (fun p => mkPath focal (base + j) p) := by
  intro ps
  induction ps with
  | nil => intro base j; simp [mkPaths]
  | cons p rest ih =>
    intro base j
    cases j with
    | zero => simp [mkPaths]
    | succ j' =>
      simp only [mkPaths, List.get?_cons_succ, ih (base + 1) j']
      cases rest.get? j' <;> simp [Nat.add_assoc, Nat.add_comm 1 j']

/-- Well-formedness of one path at position `i` of the path list: the focal
index is in range and each member records its own position. -/
structure WFPath (i : Nat) (p : TDdgPath) : Prop where
  focal_lt : p.focalIdx < p.members.length
  self_loc : ∀ j e, p.members.get? j = some e →
    e.pathId = i ∧ e.memberIdx = j ∧ e.focalIdx = p.focalIdx

/-- Well-formedness of a transform result's path list. -/
def WFPaths (paths : List TDdgPath) : Prop :=
  ∀ i p, paths.get? i = some p → WFPath i p

theorem wfPath_mkPath (focal : FocalSelector) (i : Nat) (entries : List TDdgPayloadEntry)
    (hfocal : (entries.findIdx? (matchesFocal focal)).isSome) :
    WFPath i (mkPath focal i entries) := by
  obtain ⟨k, hk⟩ := Option.isSome_iff_exists.mp hfocal
  constructor
  · have hlt : k < entries.length := List.findIdx?_eq_some_iff_findIdx_eq.mp hk |>.1
    simp only [mkPath, hk, Option.getD_some, mkMembers_length]
    exact hlt
  · intro j e he
    simp only [mkPath, mkMembers_get?] at he
    cases hj : entries.get? j with
    | none => rw [hj] at he; simp at he
    | some en =>
      rw [hj] at he
      simp only [Option.map_some'] at he
      cases he
      simp [mkPath, hk]

theorem wfPaths_transform (payload : TDdgPayload) (focal : FocalSelector)
    (m : TDdgModel) (h : transformDdgData payload focal = .ok m) : WFPaths m.paths := by
  unfold transformDdgData at h
  set sorted := payload.insertionSort pathLE with hsorted
  by_cases hall : sorted.all (fun p => (p.findIdx? (matchesFocal focal)).isSome)
  · rw [if_pos hall] at h
    cases h
    intro i p hp
    rw [mkPaths_get?] at hp
    cases hq : sorted.get? i with
    | none => rw [hq] at hp; simp at hp
    | some entries =>
      rw [hq] at hp
      simp only [Option.map_some'] at hp
      cases hp
      simp only [Nat.zero_add]
      exact wfPath_mkPath focal i entries
        (by
          have hmem : entries ∈ sorted := List.get?_mem hq
          exact (List.all_eq_true.mp hall) entries hmem)
  · rw [if_neg hall] at h
    cases h

/-- Membership in `allElems` unpacked to a positioned path. -/
theorem mem_allElems_iff (paths : List TDdgPath) (e : PathElem) :
    e ∈ allElems paths ↔ ∃ i p, paths.get? i = some p ∧ e ∈ p.members := by
  simp only [allElems, List.mem_flatMap]
  constructor
  · rintro ⟨p, hp, he⟩
    obtain ⟨i, hi⟩ := List.get?_of_mem hp
    exact ⟨i, p, hi, he⟩
  · rintro ⟨i, p, hp, he⟩
    exact ⟨p, List.get?_mem hp, he⟩

/-- In a well-formed path list every PathElem of `allElems` locates itself:
its `pathId` finds its path and its `memberIdx` finds the element. -/
theorem locate_of_mem_allElems {paths : List TDdgPath} (hwf : WFPaths paths)
    {e : PathElem} (he : e ∈ allElems paths) :
    ∃ p, paths.get? e.pathId = some p ∧ p.members.get? e.memberIdx = some e ∧
      e.focalIdx = p.focalIdx ∧ p.focalIdx < p.members.length := by
  obtain ⟨i, p, hp, hmem⟩ := (mem_allElems_iff paths e).mp he
  obtain ⟨j, hj⟩ := List.get?_of_mem hmem
  obtain ⟨hpid, hmid, hfid⟩ := (hwf i p hp).self_loc j e hj
  refine ⟨p, ?_, ?_, hfid, (hwf i p hp).focal_lt⟩
  · rw [hpid]; exact hp
  · rw [hmid]; exact hj

/-! ## The tier sequence and the visibility order -/

/-- The distance visited at step `k` of the flattened tier walk:
`0, 1, -1, 2, -2, ...`. -/
def tierVal (k : Nat) : Int :=
  if k % 2 = 0 then -((k / 2 : Nat) : Int) else ((k / 2 : Nat) : Int) + 1

/-- The position a distance tier occupies in the walk `0, 1, -1, 2, -2, ...`
of the assignment loop. -/
def rankD (d : Int) : Nat :=
  if 0 < d then 2 * d.natAbs - 1 else 2 * d.natAbs

theorem tierVal_even (k : Nat) : tierVal (2 * k) = -(k : Int) := by
  have h1 : (2 * k) % 2 = 0 := by omega
  have h2 : (2 * k) / 2 = k := by omega
  simp [tierVal, h1, h2]

theorem tierVal_odd (k : Nat) : tierVal (2 * k + 1) = (k : Int) + 1 := by
  have h1 : (2 * k + 1) % 2 = 1 := by omega
  have h2 : (2 * k + 1) / 2 = k := by omega
  simp [tierVal, h1, h2]

theorem rankD_tierVal (k : Nat) : rankD (tierVal k) = k := by
  rcases Nat.even_or_odd k with ⟨m, hm⟩ | ⟨m, hm⟩
  · subst hm
    rw [show m + m = 2 * m by omega, tierVal_even]
    have : ¬(0 : Int) < -(m : Int) := by omega
    simp [rankD, this]
  · subst hm
    rw [tierVal_odd]
    have h0 : (0 : Int) < (m : Int) + 1 := by omega
    have h1 : ((m : Int) + 1).natAbs = m + 1 := by omega
    simp only [rankD, h0, if_pos, h1]
    omega

theorem tierVal_injective : Function.Injective tierVal := by
  intro a b h
  have := congrArg rankD h
  simpa [rankD_tierVal] using this

theorem tierSeq_eq_map (n : Nat) : tierSeq n = (List.range (2 * (n + 1))).map tierVal := by
  induction n with
  | zero => decide
  | succ n ih =>
    have hr : List.range (n + 1 + 1) = List.range (n + 1) ++ [n + 1] := List.range_succ (n + 1)
    have hr2 : List.range (2 * (n + 1 + 1)) = List.range (2 * (n + 1)) ++ [2 * (n + 1), 2 * (n + 1) + 1] := by
      rw [show 2 * (n + 1 + 1) = (2 * (n + 1) + 1) + 1 by omega, List.range_succ,
        List.range_succ, List.append_assoc]
      rfl
    rw [tierSeq, hr, List.flatMap_append, hr2, List.map_append, ← tierSeq, ih]
    simp [tierVal_even, tierVal_odd]

theorem nodup_tierSeq (n : Nat) : (tierSeq n).Nodup := by
  rw [tierSeq_eq_map]
  exact (List.nodup_range _).map tierVal_injective

theorem pairwise_rank_tierSeq (n : Nat) :
    (tierSeq n).Pairwise (fun a b => rankD a < rankD b) := by
  rw [tierSeq_eq_map, List.pairwise_map]
  exact (List.pairwise_lt_range _).imp (by simp [rankD_tierVal])

theorem mem_tierSeq_of_natAbs_le {d : Int} {n : Nat} (h : d.natAbs ≤ n) : d ∈ tierSeq n := by
  rw [tierSeq_eq_map, List.mem_map]
  rcases le_or_lt d 0 with hd | hd
  · refine ⟨2 * d.natAbs, ?_, ?_⟩
    · rw [List.mem_range]; omega
    · rw [tierVal_even]; omega
  · refine ⟨2 * (d.natAbs - 1) + 1, ?_, ?_⟩
    · rw [List.mem_range]; omega
    · rw [tierVal_odd]; omega

theorem natAbs_le_of_rankD_le {d d' : Int} (h : rankD d ≤ rankD d') :
    d.natAbs ≤ d'.natAbs := by
  unfold rankD at h
  by_cases h1 : 0 < d <;> by_cases h2 : 0 < d' <;> simp only [h1, h2, if_pos, if_neg, if_true,
    if_false, reduceIte] at h <;> omega

theorem distance_mem_elemsAtDistance {l : List PathElem} {d : Int} {e : PathElem}
    (h : e ∈ elemsAtDistance l d) : e.distance = d ∧ e ∈ l := by
  have := List.mem_filter.mp h
  exact ⟨by simpa using this.2, this.1⟩

theorem count_elemsAtDistance (l : List PathElem) (d : Int) (x : PathElem) :
    (elemsAtDistance l d).count x = if x.distance = d then l.count x else 0 := by
  unfold elemsAtDistance
  by_cases hx : x.distance = d
  · rw [if_pos hx]
    exact List.count_filter (by simpa using hx)
  · rw [if_neg hx]
    refine List.count_eq_zero.mpr ?_
    intro hmem
    exact hx (by simpa using (List.mem_filter.mp hmem).2)

theorem count_flatMap_elemsAtDistance (l : List PathElem) (x : PathElem) :
    ∀ ds : List Int, ds.Nodup →
      (ds.flatMap (elemsAtDistance l)).count x = if x.distance ∈ ds then l.count x else 0 := by
  intro ds
  induction ds with
  | nil => simp
  | cons d ds ih =>
    intro hnd
    rw [List.flatMap_cons, List.count_append, count_elemsAtDistance,
      ih (List.nodup_cons.mp hnd).2]
    by_cases hd : x.distance = d
    · have hnotin : x.distance ∉ ds := hd ▸ (List.nodup_cons.mp hnd).1
      have hmem : x.distance ∈ d :: ds := by rw [hd]; exact List.mem_cons_self d ds
      rw [if_pos hd, if_neg hnotin, if_pos hmem, Nat.add_zero]
    · have hiff : (x.distance ∈ d :: ds) ↔ x.distance ∈ ds := by
        rw [List.mem_cons]
        exact or_iff_right hd
      by_cases hds : x.distance ∈ ds
      · rw [if_neg hd, if_pos hds, if_pos (hiff.mpr hds), Nat.zero_add]
      · rw [if_neg hd, if_neg hds, if_neg (fun h => hds (hiff.mp h))]

theorem visOrder_perm (l : List PathElem) (h : ∀ e ∈ l, e.distance.natAbs ≤ l.length) :
    (visOrder l).Perm l := by
  rw [List.perm_iff_count]
  intro x
  rw [visOrder, count_flatMap_elemsAtDistance l x _ (nodup_tierSeq _)]
  by_cases hx : x ∈ l
  · rw [if_pos (mem_tierSeq_of_natAbs_le (h x hx))]
  · have : l.count x = 0 := List.count_eq_zero.mpr hx
    rw [this]
    simp

theorem distance_mem_of_mem_visOrder {l : List PathElem} {e : PathElem}
    (h : e ∈ visOrder l) : e.distance ∈ tierSeq l.length ∧ e ∈ l := by
  rw [visOrder] at h
  obtain ⟨d, hd, he⟩ := List.mem_flatMap.mp h
  obtain ⟨hdist, hmem⟩ := distance_mem_elemsAtDistance he
  exact ⟨hdist ▸ hd, hmem⟩

theorem pairwise_rank_visOrder (l : List PathElem) :
    (visOrder l).Pairwise (fun a b => rankD a.distance ≤ rankD b.distance) := by
  rw [visOrder]
  generalize hds : tierSeq l.length = ds
  have hpw : ds.Pairwise (fun a b => rankD a < rankD b) := hds ▸ pairwise_rank_tierSeq _
  clear hds
  induction ds with
  | nil => simp
  | cons d ds ih =>
    rw [List.flatMap_cons, List.pairwise_append]
    obtain ⟨hhead, htail⟩ := List.pairwise_cons.mp hpw
    refine ⟨?_, ih htail, ?_⟩
    · refine List.pairwise_of_forall_mem_list ?_
      intro a ha b hb
      rw [(distance_mem_elemsAtDistance ha).1, (distance_mem_elemsAtDistance hb).1]
    · intro a ha b hb
      obtain ⟨d', hd', hb'⟩ := List.mem_flatMap.mp hb
      rw [(distance_mem_elemsAtDistance ha).1, (distance_mem_elemsAtDistance hb').1]
      exact le_of_lt (hhead d' hd')

/-! ## No duplicate PathElems inside one transform result -/

theorem allElems_cons (p : TDdgPath) (ps : List TDdgPath) :
    allElems (p :: ps) = p.members ++ allElems ps := by
  simp [allElems]

theorem mem_mkMembers_fields (pid f : Nat) :
    ∀ (l : List TDdgPayloadEntry) (i : Nat) (e : PathElem), e ∈ mkMembers pid f i l →
      e.pathId = pid ∧ i ≤ e.memberIdx := by
  intro l
  induction l with
  | nil => intro i e he; simp [mkMembers] at he
  | cons en rest ih =>
    intro i e he
    rcases List.mem_cons.mp he with rfl | hmem
    · exact ⟨rfl, Nat.le_refl i⟩
    · obtain ⟨h1, h2⟩ := ih (i + 1) e hmem
      exact ⟨h1, by omega⟩

theorem nodup_mkMembers (pid f : Nat) :
    ∀ (l : List TDdgPayloadEntry) (i : Nat), (mkMembers pid f i l).Nodup := by
  intro l
  induction l with
  | nil => intro i; simp [mkMembers]
  | cons en rest ih =>
    intro i
    rw [mkMembers, List.nodup_cons]
    refine ⟨?_, ih (i + 1)⟩
    intro hmem
    have h2 : i + 1 ≤ i := (mem_mkMembers_fields pid f rest (i + 1) _ hmem).2
    omega

theorem pathId_ge_of_mem_allElems_mkPaths (focal : FocalSelector) :
    ∀ (ps : List (List TDdgPayloadEntry)) (base : Nat) (e : PathElem),
      e ∈ allElems (mkPaths focal base ps) → base ≤ e.pathId := by
  intro ps
  induction ps with
  | nil => intro base e he; simp [mkPaths, allElems] at he
  | cons p rest ih =>
    intro base e he
    rw [mkPaths, allElems_cons] at he
    rcases List.mem_append.mp he with hmem | hmem
    · have := (mem_mkMembers_fields base _ p 0 e hmem).1
      omega
    · have := ih (base + 1) e hmem
      omega

theorem nodup_allElems_mkPaths (focal : FocalSelector) :
    ∀ (ps : List (List TDdgPayloadEntry)) (base : Nat),
      (allElems (mkPaths focal base ps)).Nodup := by
  intro ps
  induction ps with
  | nil => intro base; simp [mkPaths, allElems]
  | cons p rest ih =>
    intro base
    rw [mkPaths, allElems_cons, List.nodup_append]
    refine ⟨nodup_mkMembers _ _ p 0, ih (base + 1), ?_⟩
    intro e he hmem
    have h1 := (mem_mkMembers_fields base _ p 0 e he).1
    have h2 := pathId_ge_of_mem_allElems_mkPaths focal rest (base + 1) e hmem
    omega

theorem length_members_le_of_get? (paths : List TDdgPath) :
    ∀ (i : Nat) (p : TDdgPath), paths.get? i = some p →
      p.members.length ≤ (allElems paths).length := by
  induction paths with
  | nil => intro i p hp; simp at hp
  | cons q rest ih =>
    intro i p hp
    rw [allElems_cons, List.length_append]
    cases i with
    | zero =>
      simp only [List.get?_cons_zero, Option.some.injEq] at hp
      subst hp
      omega
    | succ i' =>
      have := ih i' p (by simpa using hp)
      omega

theorem natAbs_distance_le {paths : List TDdgPath} (hwf : WFPaths paths)
    {e : PathElem} (he : e ∈ allElems paths) :
    e.distance.natAbs ≤ (allElems paths).length := by
  obtain ⟨p, hp, hself, hfocal, hflt⟩ := locate_of_mem_allElems hwf he
  have hmlt : e.memberIdx < p.members.length := by
    by_contra hge
    rw [List.get?_eq_none.mpr (by omega)] at hself
    exact Option.noConfusion hself
  have hle := length_members_le_of_get? paths e.pathId p hp
  unfold PathElem.distance
  omega

/-! ## What a successful transform produces -/

theorem transform_ok_eq {payload : TDdgPayload} {focal : FocalSelector} {m : TDdgModel}
    (h : transformDdgData payload focal = .ok m) :
    m.paths = mkPaths focal 0 (payload.insertionSort pathLE) ∧
      m.visIdxToPathElem = visOrder (allElems m.paths) := by
  unfold transformDdgData at h
  by_cases hall : (payload.insertionSort pathLE).all
      (fun p => (p.findIdx? (matchesFocal focal)).isSome)
  · rw [if_pos hall] at h
    cases h
    exact ⟨rfl, rfl⟩
  · rw [if_neg hall] at h
    cases h

theorem transform_nodup_allElems {payload : TDdgPayload} {focal : FocalSelector} {m : TDdgModel}
    (h : transformDdgData payload focal = .ok m) : (allElems m.paths).Nodup := by
  rw [(transform_ok_eq h).1]
  exact nodup_allElems_mkPaths focal _ 0

theorem transform_visIdx_perm {payload : TDdgPayload} {focal : FocalSelector} {m : TDdgModel}
    (h : transformDdgData payload focal = .ok m) :
    (m.visIdxToPathElem).Perm (allElems m.paths) := by
  rw [(transform_ok_eq h).2]
  exact visOrder_perm _ (fun e he => natAbs_distance_le (wfPaths_transform _ _ _ h) he)

theorem transform_visIdx_nodup {payload : TDdgPayload} {focal : FocalSelector} {m : TDdgModel}
    (h : transformDdgData payload focal = .ok m) : m.visIdxToPathElem.Nodup :=
  (transform_visIdx_perm h).nodup_iff.mpr (transform_nodup_allElems h)

theorem transform_pairwise_rank {payload : TDdgPayload} {focal : FocalSelector} {m : TDdgModel}
    (h : transformDdgData payload focal = .ok m) :
    m.visIdxToPathElem.Pairwise (fun a b => rankD a.distance ≤ rankD b.distance) := by
  rw [(transform_ok_eq h).2]
  exact pairwise_rank_visOrder _

/-- The success condition of the transform, phrased over the raw payload. -/
theorem transform_isOk_iff (payload : TDdgPayload) (focal : FocalSelector) :
    (∃ m, transformDdgData payload focal = .ok m) ↔
      ∀ path ∈ payload, ∃ en ∈ path, matchesFocal focal en = true := by
  unfold transformDdgData
  by_cases hall : (payload.insertionSort pathLE).all
      (fun p => (p.findIdx? (matchesFocal focal)).isSome)
  · rw [if_pos hall]
    constructor
    · intro _ path hmem
      have hs : path ∈ payload.insertionSort pathLE := (List.mem_insertionSort _).mpr hmem
      have := List.all_eq_true.mp hall path hs
      rw [List.findIdx?_isSome, List.any_eq_true] at this
      simpa using this
    · intro _
      exact ⟨_, rfl⟩
  · rw [if_neg hall]
    constructor
    · rintro ⟨m, hm⟩; cases hm
    · intro hforall
      exfalso
      apply hall
      rw [List.all_eq_true]
      intro path hs
      have hmem : path ∈ payload := (List.mem_insertionSort _).mp hs
      obtain ⟨en, hen, hmatch⟩ := hforall path hmem
      rw [List.findIdx?_isSome, List.any_eq_true]
      exact ⟨en, hen, hmatch⟩

/-! ## Filter extraction from the tier walk -/

theorem filter_flatMap_elemsAtDistance (l : List PathElem) (d : Int) :
    ∀ ds : List Int, ds.Nodup →
      (ds.flatMap (elemsAtDistance l)).filter (fun e => e.distance == d)
        = if d ∈ ds then elemsAtDistance l d else [] := by
  intro ds
  induction ds with
  | nil => simp
  | cons d' ds ih =>
    intro hnd
    rw [List.flatMap_cons, List.filter_append, ih (List.nodup_cons.mp hnd).2]
    by_cases hd : d' = d
    · subst hd
      have hnotin : d' ∉ ds := (List.nodup_cons.mp hnd).1
      rw [if_neg hnotin, if_pos (List.mem_cons_self d' ds), List.append_nil]
      exact List.filter_eq_self.mpr (fun a ha => by
        simpa using (distance_mem_elemsAtDistance ha).1)
    · have hhead : (elemsAtDistance l d').filter (fun e => e.distance == d) = [] := by
        refine List.filter_eq_nil_iff.mpr ?_
        intro a ha
        have := (distance_mem_elemsAtDistance ha).1
        simp [this, hd]
      rw [hhead, List.nil_append]
      have hiff : (d ∈ d' :: ds) ↔ d ∈ ds := by
        rw [List.mem_cons]
        exact or_iff_right (fun h => hd h.symm)
      by_cases hds : d ∈ ds
      · rw [if_pos hds, if_pos (hiff.mpr hds)]
      · rw [if_neg hds, if_neg (fun h => hds (hiff.mp h))]

theorem transform_filter_distance {payload : TDdgPayload} {focal : FocalSelector} {m : TDdgModel}
    (h : transformDdgData payload focal = .ok m) (d : Int) :
    m.visIdxToPathElem.filter (fun e => e.distance == d)
      = (allElems m.paths).filter (fun e => e.distance == d) := by
  rw [(transform_ok_eq h).2, visOrder,
    filter_flatMap_elemsAtDistance _ d _ (nodup_tierSeq _)]
  by_cases hd : d ∈ tierSeq (allElems m.paths).length
  · rw [if_pos hd]
    rfl
  · rw [if_neg hd]
    symm
    refine List.filter_eq_nil_iff.mpr ?_
    intro e he hbeq
    apply hd
    have hdist : e.distance = d := by simpa using hbeq
    have := natAbs_distance_le (wfPaths_transform _ _ _ h) he
    exact mem_tierSeq_of_natAbs_le (hdist ▸ this)

/-! ## Sample data used by the concrete witnesses and counterexamples -/

def sampleA : TDdgPayloadEntry := ⟨"svcA", "opA"⟩

def sampleB : TDdgPayloadEntry := ⟨"svcB", "opB"⟩

def sampleC : TDdgPayloadEntry := ⟨"svcC", "opC"⟩

def sampleFocalB : FocalSelector := ⟨"svcB", none⟩

/-- A payload of one path `[A, B, C]` whose focal node is `B`. -/
def samplePayload : TDdgPayload := [[sampleA, sampleB, sampleC]]

/-! ## C1: dense, inverse-consistent, distance-monotone index assignment -/

/-- **C1**: for a payload in which each path matches the focal selector, the
transform succeeds; every created PathElem receives exactly one visibility
index (`visIdxToPathElem` is a duplicate-free permutation of all PathElems, so
the assigned indices are exactly `0 .. N-1`); the index-to-element map and the
element-to-index assignment are mutually inverse; and `|distance|` is
non-decreasing along ascending visibility indices. -/
theorem transform_visibility_indices_dense_and_monotone
    (payload : TDdgPayload) (focal : FocalSelector)
    (h : ∀ path ∈ payload, ∃ en ∈ path, matchesFocal focal en = true) :
    ∃ m, transformDdgData payload focal = .ok m ∧
      (m.visIdxToPathElem).Perm (allElems m.paths) ∧
      m.visIdxToPathElem.Nodup ∧
      (∀ i (hi : i < m.visIdxToPathElem.length),
        m.visibilityIdxOf (m.visIdxToPathElem.get ⟨i, hi⟩) = i) ∧
      (∀ e ∈ allElems m.paths,
        m.visIdxToPathElem.get? (m.visibilityIdxOf e) = some e) ∧
      (∀ i j (hi : i < m.visIdxToPathElem.length) (hj : j < m.visIdxToPathElem.length),
        i ≤ j →
          (m.visIdxToPathElem.get ⟨i, hi⟩).distance.natAbs
            ≤ (m.visIdxToPathElem.get ⟨j, hj⟩).distance.natAbs) := by
  obtain ⟨m, hm⟩ := (transform_isOk_iff payload focal).mpr h
  refine ⟨m, hm, transform_visIdx_perm hm, transform_visIdx_nodup hm, ?_, ?_, ?_⟩
  · intro i hi
    unfold TDdgModel.visibilityIdxOf
    exact List.indexOf_getElem (transform_visIdx_nodup hm) i hi
  · intro e he
    have hmem : e ∈ m.visIdxToPathElem := (transform_visIdx_perm hm).mem_iff.mpr he
    have hlt : m.visIdxToPathElem.indexOf e < m.visIdxToPathElem.length :=
      List.indexOf_lt_length.mpr hmem
    unfold TDdgModel.visibilityIdxOf
    rw [List.get?_eq_get hlt, List.indexOf_get hlt]
  · intro i j hi hj hij
    rcases Nat.eq_or_lt_of_le hij with rfl | hlt
    · exact Nat.le_refl _
    · have hp := transform_pairwise_rank hm
      rw [List.pairwise_iff_get] at hp
      exact natAbs_le_of_rankD_le (hp ⟨i, hi⟩ ⟨j, hj⟩ hlt)

/-- Witness for C1 at the concrete payload `[[A, B, C]]` with focal `B`. -/
theorem transform_visibility_indices_dense_and_monotone_witness :
    (∀ path ∈ samplePayload, ∃ en ∈ path, matchesFocal sampleFocalB en = true) ∧
    ∃ m, transformDdgData samplePayload sampleFocalB = .ok m ∧
      (m.visIdxToPathElem).Perm (allElems m.paths) ∧
      m.visIdxToPathElem.Nodup ∧
      (∀ i (hi : i < m.visIdxToPathElem.length),
        m.visibilityIdxOf (m.visIdxToPathElem.get ⟨i, hi⟩) = i) ∧
      (∀ e ∈ allElems m.paths,
        m.visIdxToPathElem.get? (m.visibilityIdxOf e) = some e) ∧
      (∀ i j (hi : i < m.visIdxToPathElem.length) (hj : j < m.visIdxToPathElem.length),
        i ≤ j →
          (m.visIdxToPathElem.get ⟨i, hi⟩).distance.natAbs
            ≤ (m.visIdxToPathElem.get ⟨j, hj⟩).distance.natAbs) :=
  ⟨by decide, transform_visibility_indices_dense_and_monotone samplePayload sampleFocalB
    (by decide)⟩

/-! ## C2: the order in which the tier walk assigns indices -/

/-- **C2 (counterexample)**: the claim says tiers are walked in the order
`0, -1, 1, -2, 2, ...` (the negative-distance tier of each magnitude before
the positive one).  On the payload `[[A, B, C]]` with focal `B` that would
put the distance `-1` element at visibility index 1, but the loop reads
`distanceToPathElems.get(upstream++)` for tier `+1` already in its first
iteration, so the code produces distances `[0, 1, -1]` in index order, not
`[0, -1, 1]`. -/
theorem transform_tier_walk_counterexample :
    (transformDdgData samplePayload sampleFocalB).map
        (fun m => m.visIdxToPathElem.map PathElem.distance) = .ok [0, 1, -1]
      ∧ ¬((transformDdgData samplePayload sampleFocalB).map
        (fun m => m.visIdxToPathElem.map PathElem.distance) = .ok [0, -1, 1]) := by
  constructor
  · decide
  · decide

/-- **C2 (amended)**: visibility indices are assigned by walking distance
tiers outward from the focal node in the order `0, 1, -1, 2, -2, ...` — at
each magnitude the positive-distance tier is assigned immediately before the
symmetric negative-distance tier, which is the opposite of the claimed
`0, -1, 1, -2, 2, ...` order.  `rankD` maps a distance to its position in
that walk; ranks are non-decreasing along ascending visibility indices
(so each tier occupies one consecutive block of indices, in walk order), and
restricting `visIdxToPathElem` to one tier yields exactly that tier's
PathElems in the order the paths were parsed. -/
theorem transform_tier_walk_order
    (payload : TDdgPayload) (focal : FocalSelector)
    (h : ∀ path ∈ payload, ∃ en ∈ path, matchesFocal focal en = true) :
    ∃ m, transformDdgData payload focal = .ok m ∧
      m.visIdxToPathElem.Pairwise (fun a b => rankD a.distance ≤ rankD b.distance) ∧
      (∀ d : Int, m.visIdxToPathElem.filter (fun e => e.distance == d)
          = (allElems m.paths).filter (fun e => e.distance == d)) := by
  obtain ⟨m, hm⟩ := (transform_isOk_iff payload focal).mpr h
  exact ⟨m, hm, transform_pairwise_rank hm, transform_filter_distance hm⟩

/-- Witness for the amended C2 at the payload `[[A, B, C]]` with focal `B`. -/
theorem transform_tier_walk_order_witness :
    (∀ path ∈ samplePayload, ∃ en ∈ path, matchesFocal sampleFocalB en = true) ∧
    ∃ m, transformDdgData samplePayload sampleFocalB = .ok m ∧
      m.visIdxToPathElem.Pairwise (fun a b => rankD a.distance ≤ rankD b.distance) ∧
      (∀ d : Int, m.visIdxToPathElem.filter (fun e => e.distance == d)
          = (allElems m.paths).filter (fun e => e.distance == d)) :=
  ⟨by decide, transform_tier_walk_order samplePayload sampleFocalB (by decide)⟩

/-! ## C7: MissingFocalNode exactly when a path lacks the focal node -/

theorem transform_ok_guard {payload : TDdgPayload} {focal : FocalSelector} {m : TDdgModel}
    (h : transformDdgData payload focal = .ok m) :
    ∀ path ∈ payload.insertionSort pathLE,
      (path.findIdx? (matchesFocal focal)).isSome := by
  intro path hmem
  unfold transformDdgData at h
  by_cases hall : (payload.insertionSort pathLE).all
      (fun p => (p.findIdx? (matchesFocal focal)).isSome)
  · exact List.all_eq_true.mp hall path hmem
  · rw [if_neg hall] at h
    cases h

/-- **C7**: `transformDdgData` fails with `MissingFocalNode` exactly when some
payload path has no entry matching the focal selector; and in a successful
transform every path's `focalIdx` points at a matching member while every
earlier offset does not match (first-match semantics). -/
theorem transform_missing_focal_iff_and_focalIdx_first
    (payload : TDdgPayload) (focal : FocalSelector) :
    (transformDdgData payload focal = .error .MissingFocalNode ↔
        ∃ path ∈ payload, ∀ en ∈ path, matchesFocal focal en = false) ∧
    (∀ m, transformDdgData payload focal = .ok m →
      ∀ i p, m.paths.get? i = some p →
        (∃ e, p.members.get? p.focalIdx = some e ∧
            matchesFocal focal ⟨e.service, e.operation⟩ = true) ∧
        (∀ j e, j < p.focalIdx → p.members.get? j = some e →
            matchesFocal focal ⟨e.service, e.operation⟩ = false)) := by
  constructor
  · unfold transformDdgData
    by_cases hall : (payload.insertionSort pathLE).all
        (fun p => (p.findIdx? (matchesFocal focal)).isSome)
    · rw [if_pos hall]
      refine iff_of_false (by intro h; cases h) ?_
      rintro ⟨path, hmem, hnone⟩
      have hs : path ∈ payload.insertionSort pathLE := (List.mem_insertionSort _).mpr hmem
      have hsome := List.all_eq_true.mp hall path hs
      rw [Option.isSome_iff_exists] at hsome
      obtain ⟨k, hk⟩ := hsome
      obtain ⟨hklt, hmatch, _⟩ := List.findIdx?_eq_some_iff_getElem.mp hk
      have := hnone path[k] (List.getElem_mem hklt)
      rw [this] at hmatch
      cases hmatch
    · rw [if_neg hall]
      refine iff_of_true rfl ?_
      rw [List.all_eq_true] at hall
      push_neg at hall
      obtain ⟨path, hs, hnot⟩ := hall
      refine ⟨path, (List.mem_insertionSort _).mp hs, ?_⟩
      rw [← List.findIdx?_eq_none_iff]
      cases hfi : path.findIdx? (matchesFocal focal) with
      | none => rfl
      | some k => exact absurd (by rw [hfi]; rfl) hnot
  · intro m hm i p hp
    rw [(transform_ok_eq hm).1, mkPaths_get?] at hp
    cases hq : (payload.insertionSort pathLE).get? i with
    | none => rw [hq] at hp; cases hp
    | some entries =>
      rw [hq] at hp
      simp only [Option.map_some'] at hp
      injection hp with hp
      subst hp
      have hisSome := transform_ok_guard hm entries (List.get?_mem hq)
      obtain ⟨k, hk⟩ := Option.isSome_iff_exists.mp hisSome
      obtain ⟨hklt, hmatch, hmin⟩ := List.findIdx?_eq_some_iff_getElem.mp hk
      have hfidx : (mkPath focal (0 + i) entries).focalIdx = k := by
        simp [mkPath, hk]
      have hmembers : (mkPath focal (0 + i) entries).members = mkMembers (0 + i) k 0 entries := by
        simp [mkPath, hk]
      constructor
      · refine ⟨⟨0 + i, k, k, entries[k].service, entries[k].operation⟩, ?_, ?_⟩
        · rw [hmembers, hfidx, mkMembers_get? _ _ entries 0 k,
            List.get?_eq_get hklt]
          simp
        · have heta : (⟨entries[k].service, entries[k].operation⟩ : TDdgPayloadEntry)
              = entries[k] := rfl
          rw [heta]
          exact hmatch
      · intro j e hjlt hje
        rw [hfidx] at hjlt
        rw [hmembers, mkMembers_get? _ _ entries 0 j] at hje
        cases hej : entries.get? j with
        | none => rw [hej] at hje; cases hje
        | some en =>
          rw [hej] at hje
          simp only [Option.map_some'] at hje
          injection hje with hje
          subst hje
          have hjtlt : j < entries.length := (List.get?_eq_some.mp hej).1
          have hnot := hmin j (by omega)
          have hen : entries[j] = en := by
            have hg := List.get?_eq_get hjtlt
            rw [hej] at hg
            injection hg with hg
            rw [List.get_eq_getElem] at hg
            exact hg.symm
          have heta : matchesFocal focal
              (⟨(⟨0 + i, j, k, en.service, en.operation⟩ : PathElem).service,
                (⟨0 + i, j, k, en.service, en.operation⟩ : PathElem).operation⟩ : TDdgPayloadEntry)
              = matchesFocal focal en := rfl
          rw [heta, ← hen]
          cases hcase : matchesFocal focal entries[j] with
          | false => rfl
          | true => exact absurd hcase hnot

/-! ## The write-once visibility index slot (PathElem.tsx lines 41-54) -/

/-- The mutable state behind `PathElem`'s private `_visibilityIdx?: number`
field (PathElem.tsx line 21): absent until assigned. -/
structure VisSlot where
  _visibilityIdx : Option Nat
deriving DecidableEq, Repr

/-- `set visibilityIdx(visibilityIdx: number)` of PathElem.tsx lines 41-47:
store the value if the slot is empty, otherwise throw. -/
def VisSlot.setIdx (s : VisSlot) (visibilityIdx : Nat) : Except DdgError VisSlot :=
  match s._visibilityIdx with
  | none => .ok ⟨some visibilityIdx⟩
  | some _ => .error .VisibilityIndexAlreadySet

/-- `get visibilityIdx()` of PathElem.tsx lines 49-54: return the stored value
or throw if it was never set. -/
def VisSlot.getIdx (s : VisSlot) : Except DdgError Nat :=
  match s._visibilityIdx with
  | none => .error .VisibilityIndexUnset
  | some v => .ok v

/-! ## The visibility codec -/

/-- The number of bitmap positions `encode` has to emit to cover `S`. -/
def encodeBound (s : Finset Nat) : Nat :=
  if h : s.Nonempty then s.max' h + 1 else 0

/-- Modelled from the spec: `encode(indices: set<int>) -> string` of the
visibility codec (its source file is not part of this corpus; spec section 4.2
fixes only the contract `decode(encode(S)) == S` with a canonical empty token
and leaves the layout — run-length, delta list or bitset — open).  This model
uses the bitset layout: character `i` of the token is `1` exactly when `i ∈ S`;
the empty set yields the canonical empty token `""`. -/
def encode (s : Finset Nat) : String :=
  String.mk ((List.range (encodeBound s)).map (fun i => if i ∈ s then '1' else '0'))

/-- Modelled from the spec: `decode(token: string) -> set<int>` of the
visibility codec, inverse of `encode`: the positions holding `1`, returned in
ascending order; any character other than `0`/`1` makes the token malformed
(`MalformedVisibilityToken`). -/
def decode (t : String) : Except DdgError (List Nat) :=
  if t.data.all (fun c => c == '0' || c == '1') then
    .ok ((List.range t.data.length).filter (fun i => t.data.get? i == some '1'))
  else
    .error .MalformedVisibilityToken

/-! ## Association lists standing in for the JS `Map`s of GraphModel -/

/-- `Map.get`: the value of the first binding of the key, if any. -/
def alookup {α β : Type _} [DecidableEq α] : List (α × β) → α → Option β
  | [], _ => none
  | (k, v) :: rest, key => if key = k then some v else alookup rest key

/-- `Map.set`: replace the binding of the key, or append a new one. -/
def aset {α β : Type _} [DecidableEq α] : List (α × β) → α → β → List (α × β)
  | [], k, v => [(k, v)]
  | (k', v') :: rest, k, v =>
    if k = k' then (k, v) :: rest else (k', v') :: aset rest k v

/-- `Set.add` on a list kept duplicate-free in insertion order. -/
def insertDedup {α : Type _} [DecidableEq α] (l : List α) (x : α) : List α :=
  if x ∈ l then l else l ++ [x]

/-! ## GraphModel (GraphModel/index.tsx) -/

/-- `TDdgVertex` (types.tsx): `{ key, isFocalNode, service, operation }` with
`operation: string | null`. -/
structure TDdgVertex where
  key : String
  isFocalNode : Bool
  service : String
  operation : Option String
deriving DecidableEq, Repr

/-- A plexus `TEdge`: `{ from, to }` as vertex keys (`from` is a Lean keyword,
hence `from_`/`to_`). -/
structure TEdge where
  from_ : String
  to_ : String
deriving DecidableEq, Repr

/-- The density policies of EDdgDensity (types.tsx). -/
inductive EDdgDensity where
  | MostConcise
  | UpstreamVsDownstream
  | PreventPathEntanglement
  | ExternalVsInternal
  | OnePerLevel
deriving DecidableEq, Repr

/-- Modelled from the spec: whether a PathElem is flagged "external"
(`PathElem.isExternal`, whose source is not part of this corpus): a path
boundary element — the first or last member of its path. -/
def isExternal (paths : List TDdgPath) (e : PathElem) : Bool :=
  match paths.get? e.pathId with
  | none => false
  | some p => e.memberIdx == 0 || e.memberIdx + 1 == p.members.length

/-- Modelled from the spec: the per-element key fragment `service[::operation]`
of the vertex-key hash functions (spec section 4.3): the operation is included
only when operations are shown or the element is the focal occurrence. -/
def elemToStr (showOp : Bool) (e : PathElem) : String :=
  if showOp || e.distance == 0 then e.service ++ "::" ++ e.operation else e.service

/-- Modelled from the spec: `getPathElemHasher` (its source file
`GraphModel/getPathElemHasher.tsx` is not part of this corpus; spec section
4.3 gives the per-density key derivations, which this follows): the
density-dependent vertex key of a PathElem. -/
def vertexKey (paths : List TDdgPath) (density : EDdgDensity) (showOp : Bool)
    (e : PathElem) : String :=
  match density with
  | .MostConcise => elemToStr showOp e
  | .UpstreamVsDownstream =>
    elemToStr showOp e ++ "=" ++ toString e.distance.sign
  | .PreventPathEntanglement
  | .ExternalVsInternal =>
    let core :=
      match paths.get? e.pathId with
      | none => elemToStr showOp e
      | some p =>
        String.intercalate "|"
          (((p.members.drop (Nat.min p.focalIdx e.memberIdx)).take
              ((Nat.max p.focalIdx e.memberIdx + 1) - Nat.min p.focalIdx e.memberIdx)).map
            (elemToStr showOp))
    if density = .ExternalVsInternal ∧ isExternal paths e then core ++ "::external" else core
  | .OnePerLevel => toString e.distance

/-- The state grown by the single pass of the GraphModel constructor
(GraphModel/index.tsx lines 173-243). -/
structure GraphState where
  vertices : List (String × TDdgVertex)
  vertexToPathElems : List (String × List PathElem)
  pathElemToVertex : List (PathElem × TDdgVertex)
  pathElemToEdge : List (PathElem × TEdge)
  edgesById : List ((String × String) × TEdge)
deriving DecidableEq, Repr

/-- The empty constructor state. -/
def GraphState.empty : GraphState := ⟨[], [], [], [], []⟩

/-- The fresh vertex the constructor creates for the first PathElem mapping to
`key` (GraphModel/index.tsx lines 190-199). -/
def mkVertex (showOp : Bool) (key : String) (pathElem : PathElem) : TDdgVertex :=
  let isFocalNode := pathElem.distance == 0
  { key := key
    isFocalNode := isFocalNode
    service := pathElem.service
    operation := if showOp || isFocalNode then some pathElem.operation else none }

/-- Lines 188-210 of the constructor pass: look the PathElem's vertex key up;
create the vertex (registering the element with it) when absent, else register
the element with the existing vertex — failing if the vertex has no
element-set (the `istanbul ignore` branch). -/
def findOrCreateVertex (hasher : PathElem → String) (showOp : Bool)
    (st : GraphState) (pathElem : PathElem) : Except DdgError (TDdgVertex × GraphState) :=
  let key := hasher pathElem
  match alookup st.vertices key with
  | none =>
    let vertex := mkVertex showOp key pathElem
    .ok (vertex,
      { st with
          vertices := aset st.vertices key vertex
          vertexToPathElems := aset st.vertexToPathElems key [pathElem] })
  | some vertex =>
    match alookup st.vertexToPathElems key with
    | none => .error .VertexWithoutPathElems
    | some pathElemsForVertex =>
      .ok (vertex,
        { st with
            vertexToPathElems :=
              aset st.vertexToPathElems key (insertDedup pathElemsForVertex pathElem) })

/-- Lines 212-234 of the constructor pass: a non-focal PathElem is connected
to its focal-side neighbor's vertex (`DisconnectedPathElem` when that vertex
is missing); the edge points from the focal-side vertex outward for positive
distance and inward for negative, and an edge with the same endpoints is
reused. -/
def connectElem (paths : List TDdgPath) (st2 : GraphState) (vertex : TDdgVertex)
    (pathElem : PathElem) : Except DdgError GraphState :=
  match focalSideNeighbor paths pathElem with
  | none => .ok st2
  | some connectedElem =>
    match alookup st2.pathElemToVertex connectedElem with
    | none => .error .DisconnectedPathElem
    | some connectedVertex =>
      let fromKey := if pathElem.distance > 0 then connectedVertex.key else vertex.key
      let toKey := if pathElem.distance > 0 then vertex.key else connectedVertex.key
      match alookup st2.edgesById (fromKey, toKey) with
      | none =>
        let edge : TEdge := ⟨fromKey, toKey⟩
        .ok { st2 with
                edgesById := aset st2.edgesById (fromKey, toKey) edge
                pathElemToEdge := aset st2.pathElemToEdge pathElem edge }
      | some existingEdge =>
        .ok { st2 with pathElemToEdge := aset st2.pathElemToEdge pathElem existingEdge }

/-- One step of the constructor pass (GraphModel/index.tsx lines 186-235):
find or create the vertex of the PathElem, link the element to it, and — for a
non-focal element — resolve the focal-side neighbor's vertex and record the
directed edge.  Edges are deduplicated by their `(from, to)` pair
(`getEdgeId`). -/
def processElem (paths : List TDdgPath) (hasher : PathElem → String) (showOp : Bool)
    (st : GraphState) (pathElem : PathElem) : Except DdgError GraphState :=
  match findOrCreateVertex hasher showOp st pathElem with
  | .error err => .error err
  | .ok (vertex, st1) =>
    connectElem paths
      { st1 with pathElemToVertex := aset st1.pathElemToVertex pathElem vertex }
      vertex pathElem

/-- The constructor pass over the PathElems in visibility-index order
(`ddgModel.visIdxToPathElem.forEach(...)`). -/
def processAll (paths : List TDdgPath) (hasher : PathElem → String) (showOp : Bool) :
    GraphState → List PathElem → Except DdgError GraphState
  | st, [] => .ok st
  | st, e :: rest =>
    match processElem paths hasher showOp st e with
    | .error err => .error err
    | .ok st' => processAll paths hasher showOp st' rest

/-- A constructed GraphModel: the frozen maps plus the inputs the query
methods read (GraphModel/index.tsx lines 161-243). -/
structure GraphModel where
  showOp : Bool
  paths : List TDdgPath
  visIdxToPathElem : List PathElem
  vertices : List (String × TDdgVertex)
  vertexToPathElems : List (String × List PathElem)
  pathElemToVertex : List (PathElem × TDdgVertex)
  pathElemToEdge : List (PathElem × TEdge)
deriving DecidableEq, Repr

/-- Run the constructor pass with an arbitrary vertex hasher. -/
def buildGraphWith (paths : List TDdgPath) (hasher : PathElem → String) (showOp : Bool)
    (visIdxToPathElem : List PathElem) : Except DdgError GraphModel :=
  (processAll paths hasher showOp GraphState.empty visIdxToPathElem).map fun st =>
    { showOp := showOp
      paths := paths
      visIdxToPathElem := visIdxToPathElem
      vertices := st.vertices
      vertexToPathElems := st.vertexToPathElems
      pathElemToVertex := st.pathElemToVertex
      pathElemToEdge := st.pathElemToEdge }

/-- `new GraphModel({ ddgModel, density, showOp })`: the constructor pass with
the density-selected hasher. -/
def buildGraphModel (density : EDdgDensity) (showOp : Bool) (paths : List TDdgPath)
    (visIdxToPathElem : List PathElem) : Except DdgError GraphModel :=
  buildGraphWith paths (vertexKey paths density showOp) showOp visIdxToPathElem

/-! ## GraphModel queries -/

/-- The `{ edges, vertices }` result of `getVisible`. -/
structure VisibleResult where
  edges : List TEdge
  vertices : List TDdgVertex
deriving DecidableEq, Repr

/-- `getDefaultVisiblePathElems` (GraphModel/index.tsx lines 294-302): the
elements within two hops, in the bucket order `-2, -1, 0, 1, 2`. -/
def GraphModel.getDefaultVisiblePathElems (g : GraphModel) : List PathElem :=
  elemsAtDistance (allElems g.paths) (-2) ++ elemsAtDistance (allElems g.paths) (-1) ++
    elemsAtDistance (allElems g.paths) 0 ++ elemsAtDistance (allElems g.paths) 1 ++
    elemsAtDistance (allElems g.paths) 2

/-- `getVisiblePathElems` (GraphModel/index.tsx lines 312-319): the default
two-hop elements when no encoding is given, else
`decode(visEncoding).map(visIdx => this.visIdxToPathElem[visIdx]).filter(Boolean)`
— out-of-range indices yield nothing. -/
def GraphModel.getVisiblePathElems (g : GraphModel) (visEncoding : Option String) :
    Except DdgError (List PathElem) :=
  match visEncoding with
  | none => .ok g.getDefaultVisiblePathElems
  | some s =>
    (decode s).map fun visIndices =>
      (visIndices.map (fun visIdx => g.visIdxToPathElem.get? visIdx)).filterMap id

/-- The `pathElems.forEach` accumulation of `getVisible` (GraphModel/index.tsx
lines 326-332): add the element's edge (if any) and vertex to the result sets,
throwing if the element has no vertex in the model. -/
def visFold (g : GraphModel) :
    (List TEdge × List TDdgVertex) → List PathElem →
      Except DdgError (List TEdge × List TDdgVertex)
  | acc, [] => .ok acc
  | (edges, vertices), pathElem :: rest =>
    let edges' :=
      match alookup g.pathElemToEdge pathElem with
      | some edge => insertDedup edges edge
      | none => edges
    match alookup g.pathElemToVertex pathElem with
    | some vertex => visFold g (edges', insertDedup vertices vertex) rest
    | none => .error .PathElemAbsent

/-- `getVisible` (GraphModel/index.tsx lines 321-339): deduplicated edges and
vertices of the visible PathElems. -/
def GraphModel.getVisible (g : GraphModel) (visEncoding : Option String) :
    Except DdgError VisibleResult := do
  let pathElems ← g.getVisiblePathElems visEncoding
  let acc ← visFold g ([], []) pathElems
  .ok ⟨acc.1, acc.2⟩

/-- JS `String.prototype.trim` on a char list. -/
def trimChars (l : List Char) : List Char :=
  ((l.dropWhile Char.isWhitespace).reverse.dropWhile Char.isWhitespace).reverse

/-- JS `String.prototype.split(sep)` for a one-char separator: split at every
occurrence, keeping empty fragments (so `"a  b".split(' ')` is
`["a", "", "b"]` and `"".split(' ')` is `[""]`). -/
def splitOnChar (c : Char) : List Char → List (List Char)
  | [] => [[]]
  | x :: xs =>
    if x = c then [] :: splitOnChar c xs
    else
      match splitOnChar c xs with
      | [] => [[x]]
      | t :: ts => (x :: t) :: ts

/-- Whether one uiFind token matches a vertex (GraphModel/index.tsx lines
352-359): a substring of the lowercased service, or of the lowercased
operation when the vertex has one and it is non-empty (an empty operation
string is falsy in JS, so it never matches). -/
def tokenMatches (v : TDdgVertex) (tok : List Char) : Bool :=
  decide (tok <:+: v.service.data.map Char.toLower) ||
    (match v.operation with
     | none => false
     | some op => !op.isEmpty && decide (tok <:+: op.data.map Char.toLower))

/-- `getVisibleUiFindMatches` (GraphModel/index.tsx lines 341-365): empty
query finds nothing; otherwise the query is trimmed, lowercased and split on
single spaces, and every visible vertex matched by some token is returned. -/
def GraphModel.getVisibleUiFindMatches (g : GraphModel) (uiFind : String)
    (visEncoding : Option String) : Except DdgError (List TDdgVertex) :=
  if uiFind = "" then .ok []
  else do
    let res ← g.getVisible visEncoding
    let uiFindArr := splitOnChar ' ' ((trimChars uiFind.data).map Char.toLower)
    .ok (res.vertices.filter (fun v => uiFindArr.any (tokenMatches v)))

/-! ## More sample data for counterexamples -/

/-- A one-entry path whose single entry hides a `,`-and-`\x0B` collision. -/
def collidingP : List TDdgPayloadEntry := [⟨"a", "b,c\x0Bd"⟩]

/-- A two-entry path with the same `pathCompareValue` as `collidingP`. -/
def collidingQ : List TDdgPayloadEntry := [⟨"a", "b"⟩, ⟨"c", "d"⟩]

/-- Focal selector matching service `a` with any operation. -/
def sampleFocalA : FocalSelector := ⟨"a", none⟩

/-! ## C3: determinism under payload permutation -/

/-- Two lists sorted by `pathCompareValue` that are permutations of one
another are equal, provided the comparison value is injective on the paths
involved (no key collisions). -/
theorem eq_of_perm_of_sorted_pathLE :
    ∀ {l₁ l₂ : List (List TDdgPayloadEntry)}, l₁.Perm l₂ →
      l₁.Sorted pathLE → l₂.Sorted pathLE →
      (∀ a ∈ l₁, ∀ b ∈ l₁, pathCompareValue a = pathCompareValue b → a = b) →
      l₁ = l₂ := by
  intro l₁
  induction l₁ with
  | nil =>
    intro l₂ hp _ _ _
    exact (hp.symm.eq_nil).symm ▸ rfl
  | cons a t ih =>
    intro l₂ hp hs₁ hs₂ hinj
    cases l₂ with
    | nil => cases hp.eq_nil
    | cons b t₂ =>
      have ha2 : a ∈ b :: t₂ := hp.mem_iff.mp (List.mem_cons_self a t)
      have hb1 : b ∈ a :: t := hp.mem_iff.mpr (List.mem_cons_self b t₂)
      have h1 : pathLE a b := by
        rcases List.mem_cons.mp hb1 with h | h
        · rw [h]; exact charListLE_refl _
        · exact (List.sorted_cons.mp hs₁).1 b h
      have h2 : pathLE b a := by
        rcases List.mem_cons.mp ha2 with h | h
        · rw [h]; exact charListLE_refl _
        · exact (List.sorted_cons.mp hs₂).1 a h
      have hab : a = b := hinj a (List.mem_cons_self a t) b hb1
        (String.ext (charListLE_antisymm _ _ h1 h2))
      subst hab
      have hteq : t = t₂ :=
        ih hp.cons_inv (List.sorted_cons.mp hs₁).2 (List.sorted_cons.mp hs₂).2
          (fun x hx y hy hxy =>
            hinj x (List.mem_cons_of_mem a hx) y (List.mem_cons_of_mem a hy) hxy)
      rw [hteq]

/-- **C3 (counterexample)**: the payloads `[P, Q]` and `[Q, P]` are
permutations of one another, yet the transform gives different results: `P`
(one entry whose operation is `"b,c\x0Bd"`) and `Q` (entries `a:b` and `c:d`)
have the same `pathCompareValue`, so the stable sort keeps them in their
input order, and the two orders assign visibility indices to different
PathElems. -/
theorem transform_permutation_counterexample :
    [collidingP, collidingQ].Perm [collidingQ, collidingP] ∧
    (transformDdgData [collidingP, collidingQ] sampleFocalA).map
        (fun m => m.visIdxToPathElem)
      ≠ (transformDdgData [collidingQ, collidingP] sampleFocalA).map
        (fun m => m.visIdxToPathElem) := by
  constructor
  · decide
  · decide

/-- **C3 (amended)**: for payloads that are permutations of one another the
transform — and therefore GraphModel construction on its output — gives
identical results, provided no two distinct paths of the payload share the
same `pathCompareValue` (the sort key built from the concatenated
service/operation names).  The proviso is forced by the counterexample: the
key joins entries with `,` and fields with `\x0B`, which is not injective. -/
theorem transform_permutation_deterministic
    (p1 p2 : TDdgPayload) (focal : FocalSelector) (density : EDdgDensity) (showOp : Bool)
    (hperm : p1.Perm p2)
    (hinj : ∀ a ∈ p1, ∀ b ∈ p1, pathCompareValue a = pathCompareValue b → a = b) :
    transformDdgData p1 focal = transformDdgData p2 focal ∧
      ((transformDdgData p1 focal).bind
          (fun m => buildGraphModel density showOp m.paths m.visIdxToPathElem)
        = (transformDdgData p2 focal).bind
          (fun m => buildGraphModel density showOp m.paths m.visIdxToPathElem)) := by
  have hsorted : p1.insertionSort pathLE = p2.insertionSort pathLE := by
    apply eq_of_perm_of_sorted_pathLE
    · exact (List.perm_insertionSort pathLE p1).trans
        (hperm.trans (List.perm_insertionSort pathLE p2).symm)
    · exact List.sorted_insertionSort pathLE p1
    · exact List.sorted_insertionSort pathLE p2
    · intro a ha b hb
      exact hinj a ((List.mem_insertionSort pathLE).mp ha) b
        ((List.mem_insertionSort pathLE).mp hb)
  have heq : transformDdgData p1 focal = transformDdgData p2 focal := by
    unfold transformDdgData
    rw [hsorted]
  exact ⟨heq, by rw [heq]⟩

/-- Witness for the amended C3: the payload `[[A, B, C], [B]]` against its
reversal, with collision-free keys. -/
theorem transform_permutation_deterministic_witness :
    ([[sampleA, sampleB, sampleC], [sampleB]] : TDdgPayload).Perm
        [[sampleB], [sampleA, sampleB, sampleC]] ∧
    (∀ a ∈ ([[sampleA, sampleB, sampleC], [sampleB]] : TDdgPayload),
      ∀ b ∈ ([[sampleA, sampleB, sampleC], [sampleB]] : TDdgPayload),
        pathCompareValue a = pathCompareValue b → a = b) ∧
    transformDdgData [[sampleA, sampleB, sampleC], [sampleB]] sampleFocalB
        = transformDdgData [[sampleB], [sampleA, sampleB, sampleC]] sampleFocalB ∧
      ((transformDdgData [[sampleA, sampleB, sampleC], [sampleB]] sampleFocalB).bind
          (fun m => buildGraphModel .MostConcise true m.paths m.visIdxToPathElem)
        = (transformDdgData [[sampleB], [sampleA, sampleB, sampleC]] sampleFocalB).bind
          (fun m => buildGraphModel .MostConcise true m.paths m.visIdxToPathElem)) :=
  ⟨by decide, by decide,
    transform_permutation_deterministic _ _ sampleFocalB .MostConcise true
      (by decide) (by decide)⟩

/-! ## Association list and dedup lemmas -/

theorem alookup_aset_self {α β : Type _} [DecidableEq α] :
    ∀ (l : List (α × β)) (k : α) (v : β), alookup (aset l k v) k = some v := by
  intro l
  induction l with
  | nil => intro k v; simp [aset, alookup]
  | cons kv rest ih =>
    intro k v
    obtain ⟨k', v'⟩ := kv
    by_cases h : k = k'
    · simp [aset, alookup, h]
    · simp only [aset, if_neg h, alookup, if_neg h]
      exact ih k v

theorem alookup_aset_ne {α β : Type _} [DecidableEq α] :
    ∀ (l : List (α × β)) (k k' : α) (v : β), k' ≠ k →
      alookup (aset l k v) k' = alookup l k' := by
  intro l
  induction l with
  | nil => intro k k' v h; simp [aset, alookup, h]
  | cons kv rest ih =>
    intro k k' v h
    obtain ⟨k₀, v₀⟩ := kv
    by_cases hk : k = k₀
    · subst hk
      simp only [aset, if_pos rfl, alookup, if_neg h]
    · simp only [aset, if_neg hk, alookup]
      by_cases hk' : k' = k₀
      · rw [if_pos hk', if_pos hk']
      · rw [if_neg hk', if_neg hk']
        exact ih k k' v h

theorem mem_insertDedup {α : Type _} [DecidableEq α] {l : List α} {x y : α} :
    y ∈ insertDedup l x ↔ y ∈ l ∨ y = x := by
  unfold insertDedup
  by_cases h : x ∈ l
  · rw [if_pos h]
    constructor
    · exact Or.inl
    · rintro (hy | rfl)
      · exact hy
      · exact h
  · rw [if_neg h]
    simp

theorem nodup_insertDedup {α : Type _} [DecidableEq α] {l : List α} (x : α)
    (h : l.Nodup) : (insertDedup l x).Nodup := by
  unfold insertDedup
  by_cases hx : x ∈ l
  · rw [if_pos hx]; exact h
  · rw [if_neg hx]
    exact List.Nodup.append h (List.nodup_singleton x)
      (by intro a ha hb; rw [List.mem_singleton] at hb; exact hx (hb ▸ ha))

/-! ## The focal-side neighbor in a well-formed model -/

theorem focalSideNeighbor_spec {paths : List TDdgPath} (hwf : WFPaths paths)
    {e n : PathElem} (he : e ∈ allElems paths)
    (hn : focalSideNeighbor paths e = some n) :
    n ∈ allElems paths ∧ n.distance.natAbs + 1 = e.distance.natAbs ∧ e.distance ≠ 0 := by
  unfold focalSideNeighbor at hn
  by_cases hd : e.distance = 0
  · rw [if_pos hd] at hn; cases hn
  · rw [if_neg hd] at hn
    obtain ⟨p, hp, hself, hfocal, hflt⟩ := locate_of_mem_allElems hwf he
    rw [hp] at hn
    obtain ⟨i, hi⟩ : ∃ i, p.members.get? i = some n := ⟨_, hn⟩
    refine ⟨(mem_allElems_iff paths n).mpr ⟨e.pathId, p, hp, List.get?_mem hn⟩, ?_, hd⟩
    have hwfp := hwf e.pathId p hp
    obtain ⟨_, hnmid, hnfid⟩ := hwfp.self_loc _ n hn
    obtain ⟨_, hemid, hefid⟩ := hwfp.self_loc _ e hself
    unfold PathElem.distance at hd ⊢
    by_cases hgt : e.distance > 0
    · rw [if_pos hgt] at hn hnmid
      unfold PathElem.distance at hgt
      omega
    · rw [if_neg hgt] at hn hnmid
      unfold PathElem.distance at hgt
      omega

/-! ## The GraphModel constructor invariant -/

/-- The invariant carried through the constructor pass: `done` is the list of
already processed PathElems; every one of them has a vertex, vertex keys agree
with the hasher, the vertex and vertex-to-elements maps stay in sync, edges
stored under an id are exactly that id's endpoints, and every processed
non-focal element has its directed edge to its focal-side neighbor's vertex
recorded. -/
structure GraphInv (paths : List TDdgPath) (hasher : PathElem → String)
    (st : GraphState) (done : List PathElem) : Prop where
  domV : ∀ x : PathElem, (alookup st.pathElemToVertex x).isSome = true ↔ x ∈ done
  keyOf : ∀ x v, alookup st.pathElemToVertex x = some v → v.key = hasher x
  sync : ∀ k, (alookup st.vertices k).isSome = true →
    (alookup st.vertexToPathElems k).isSome = true
  vkey : ∀ k v, alookup st.vertices k = some v → v.key = k
  edgeWF : ∀ pr e, alookup st.edgesById pr = some e → e = TEdge.mk pr.1 pr.2
  edgeOf : ∀ x n, x ∈ done → focalSideNeighbor paths x = some n →
    n ∈ done ∧ ∃ vx vn, alookup st.pathElemToVertex x = some vx ∧
      alookup st.pathElemToVertex n = some vn ∧
      alookup st.pathElemToEdge x
        = some (if x.distance > 0 then TEdge.mk vn.key vx.key else TEdge.mk vx.key vn.key)

theorem graphInv_empty (paths : List TDdgPath) (hasher : PathElem → String) :
    GraphInv paths hasher GraphState.empty [] := by
  refine ⟨?_, ?_, ?_, ?_, ?_, ?_⟩
  · intro x
    simp [GraphState.empty, alookup]
  · intro x v h
    simp [GraphState.empty, alookup] at h
  · intro k h
    simp [GraphState.empty, alookup] at h
  · intro k v h
    simp [GraphState.empty, alookup] at h
  · intro pr e h
    simp [GraphState.empty, alookup] at h
  · intro x n hx _
    exact absurd hx (List.not_mem_nil x)

theorem findOrCreateVertex_ok (hasher : PathElem → String) (showOp : Bool)
    (st : GraphState) (y : PathElem)
    (hsync : ∀ k, (alookup st.vertices k).isSome = true →
      (alookup st.vertexToPathElems k).isSome = true)
    (hvkey : ∀ k v, alookup st.vertices k = some v → v.key = k) :
    ∃ vertex st1, findOrCreateVertex hasher showOp st y = .ok (vertex, st1) ∧
      vertex.key = hasher y ∧
      st1.pathElemToVertex = st.pathElemToVertex ∧
      st1.pathElemToEdge = st.pathElemToEdge ∧
      st1.edgesById = st.edgesById ∧
      (∀ k v, alookup st1.vertices k = some v → v.key = k) ∧
      (∀ k, (alookup st1.vertices k).isSome = true →
        (alookup st1.vertexToPathElems k).isSome = true) := by
  cases hv : alookup st.vertices (hasher y) with
  | none =>
    refine ⟨mkVertex showOp (hasher y) y,
      { st with
          vertices := aset st.vertices (hasher y) (mkVertex showOp (hasher y) y)
          vertexToPathElems := aset st.vertexToPathElems (hasher y) [y] },
      ?_, rfl, rfl, rfl, rfl, ?_, ?_⟩
    · unfold findOrCreateVertex
      simp only [hv]
    · intro k v hkv
      by_cases hk : k = hasher y
      · subst hk
        rw [alookup_aset_self] at hkv
        cases hkv
        rfl
      · rw [alookup_aset_ne _ _ _ _ hk] at hkv
        exact hvkey k v hkv
    · intro k hk
      by_cases hkey : k = hasher y
      · subst hkey
        rw [alookup_aset_self]
        rfl
      · rw [alookup_aset_ne _ _ _ _ hkey] at hk ⊢
        exact hsync k hk
  | some vertex =>
    have hpes : (alookup st.vertexToPathElems (hasher y)).isSome = true :=
      hsync _ (by rw [hv]; rfl)
    obtain ⟨pes, hpes⟩ := Option.isSome_iff_exists.mp hpes
    refine ⟨vertex,
      { st with
          vertexToPathElems :=
            aset st.vertexToPathElems (hasher y) (insertDedup pes y) },
      ?_, hvkey _ _ hv, rfl, rfl, rfl, hvkey, ?_⟩
    · unfold findOrCreateVertex
      simp only [hv, hpes]
    · intro k hk
      by_cases hkey : k = hasher y
      · subst hkey
        rw [alookup_aset_self]
        rfl
      · rw [alookup_aset_ne _ _ _ _ hkey]
        exact hsync k hk

theorem processElem_ok (paths : List TDdgPath) (hasher : PathElem → String) (showOp : Bool)
    (st : GraphState) (done : List PathElem) (y : PathElem)
    (hinv : GraphInv paths hasher st done)
    (hy : y ∉ done)
    (hfsn : ∀ n, focalSideNeighbor paths y = some n → n ∈ done) :
    ∃ st', processElem paths hasher showOp st y = .ok st' ∧
      GraphInv paths hasher st' (done ++ [y]) := by
  obtain ⟨vertex, st1, heq1, hkey, hpv, hpe, hei, hvkey1, hsync1⟩ :=
    findOrCreateVertex_ok hasher showOp st y hinv.sync hinv.vkey
  have hpeq : processElem paths hasher showOp st y
      = connectElem paths
          { st1 with pathElemToVertex := aset st1.pathElemToVertex y vertex }
          vertex y := by
    unfold processElem
    rw [heq1]
  -- facts about the state entering connectElem
  have hpv2 : ({ st1 with pathElemToVertex := aset st1.pathElemToVertex y vertex}
      : GraphState).pathElemToVertex = aset st.pathElemToVertex y vertex := by
    rw [hpv]
  have hdom : ∀ x, (alookup (aset st.pathElemToVertex y vertex) x).isSome = true
      ↔ x ∈ done ++ [y] := by
    intro x
    by_cases hx : x = y
    · subst hx
      rw [alookup_aset_self]
      simp
    · rw [alookup_aset_ne _ _ _ _ hx, List.mem_append, List.mem_singleton]
      rw [hinv.domV x]
      constructor
      · exact Or.inl
      · rintro (h | h)
        · exact h
        · exact absurd h hx
  have hkeyOf : ∀ x v, alookup (aset st.pathElemToVertex y vertex) x = some v →
      v.key = hasher x := by
    intro x v hxv
    by_cases hx : x = y
    · subst hx
      rw [alookup_aset_self] at hxv
      cases hxv
      exact hkey
    · rw [alookup_aset_ne _ _ _ _ hx] at hxv
      exact hinv.keyOf x v hxv
  have hOldEdge : ∀ (pe' : List (PathElem × TEdge)),
      (∀ x : PathElem, x ≠ y → alookup pe' x = alookup st.pathElemToEdge x) →
      ∀ x n, x ∈ done → focalSideNeighbor paths x = some n →
        n ∈ done ++ [y] ∧ ∃ vx vn,
          alookup (aset st.pathElemToVertex y vertex) x = some vx ∧
          alookup (aset st.pathElemToVertex y vertex) n = some vn ∧
          alookup pe' x
            = some (if x.distance > 0 then TEdge.mk vn.key vx.key
                else TEdge.mk vx.key vn.key) := by
    intro pe' hpres x n hxdone hxn
    obtain ⟨hndone, vx, vn, hvx, hvn, hedge⟩ := hinv.edgeOf x n hxdone hxn
    have hxy : x ≠ y := fun h => hy (h ▸ hxdone)
    have hny : n ≠ y := fun h => hy (h ▸ hndone)
    refine ⟨List.mem_append.mpr (Or.inl hndone), vx, vn, ?_, ?_, ?_⟩
    · rw [alookup_aset_ne _ _ _ _ hxy]; exact hvx
    · rw [alookup_aset_ne _ _ _ _ hny]; exact hvn
    · rw [hpres x hxy]; exact hedge
  rw [hpeq]
  cases hn : focalSideNeighbor paths y with
  | none =>
    refine ⟨_, by unfold connectElem; rw [hn], ?_⟩
    refine ⟨?_, ?_, ?_, ?_, ?_, ?_⟩
    · intro x; rw [hpv2]; exact hdom x
    · intro x v; rw [hpv2]; exact hkeyOf x v
    · exact hsync1
    · exact hvkey1
    · intro pr e
      rw [show ({ st1 with pathElemToVertex := aset st1.pathElemToVertex y vertex}
          : GraphState).edgesById = st.edgesById from hei]
      exact hinv.edgeWF pr e
    · intro x n hx hxn
      rcases List.mem_append.mp hx with hxdone | hxy
      · have := hOldEdge st.pathElemToEdge (fun _ _ => rfl) x n hxdone hxn
        rw [hpv2, show ({ st1 with pathElemToVertex := aset st1.pathElemToVertex y vertex}
            : GraphState).pathElemToEdge = st.pathElemToEdge from hpe]
        exact this
      · rw [List.mem_singleton] at hxy
        subst hxy
        rw [hn] at hxn
        cases hxn
  | some n =>
    have hndone := hfsn n hn
    have hny : n ≠ y := fun h => hy (h ▸ hndone)
    obtain ⟨vn, hvn⟩ := Option.isSome_iff_exists.mp ((hinv.domV n).mpr hndone)
    have hvn2 : alookup (aset st.pathElemToVertex y vertex) n = some vn := by
      rw [alookup_aset_ne _ _ _ _ hny]; exact hvn
    have hvy2 : alookup (aset st.pathElemToVertex y vertex) y = some vertex :=
      alookup_aset_self _ _ _
    have hei2 : ({ st1 with pathElemToVertex := aset st1.pathElemToVertex y vertex}
        : GraphState).edgesById = st.edgesById := hei
    have hpe2 : ({ st1 with pathElemToVertex := aset st1.pathElemToVertex y vertex}
        : GraphState).pathElemToEdge = st.pathElemToEdge := hpe
    have hceq : connectElem paths
        { st1 with pathElemToVertex := aset st1.pathElemToVertex y vertex } vertex y
        = (match alookup st.edgesById
            (if y.distance > 0 then vn.key else vertex.key,
              if y.distance > 0 then vertex.key else vn.key) with
           | none =>
             .ok { st1 with
                     pathElemToVertex := aset st1.pathElemToVertex y vertex
                     edgesById := aset st.edgesById
                       (if y.distance > 0 then vn.key else vertex.key,
                         if y.distance > 0 then vertex.key else vn.key)
                       (TEdge.mk (if y.distance > 0 then vn.key else vertex.key)
                         (if y.distance > 0 then vertex.key else vn.key))
                     pathElemToEdge :=
                       aset st.pathElemToEdge y
                         (TEdge.mk (if y.distance > 0 then vn.key else vertex.key)
                           (if y.distance > 0 then vertex.key else vn.key)) }
           | some existingEdge =>
             .ok { st1 with
                     pathElemToVertex := aset st1.pathElemToVertex y vertex
                     pathElemToEdge := aset st.pathElemToEdge y existingEdge }) := by
      unfold connectElem
      rw [hn]
      dsimp only
      rw [show alookup (aset st1.pathElemToVertex y vertex) n = some vn from by
        rw [hpv]; exact hvn2]
      dsimp only
      simp only [hei, hpe]
    rw [hceq]
    set fromKey := if y.distance > 0 then vn.key else vertex.key with hfrom
    set toKey := if y.distance > 0 then vertex.key else vn.key with hto
    have hEdgeVal : ∀ ed : TEdge, ed = TEdge.mk fromKey toKey →
        ed = (if y.distance > 0 then TEdge.mk vn.key vertex.key
          else TEdge.mk vertex.key vn.key) := by
      intro ed hed
      rw [hed, hfrom, hto]
      by_cases hgt : y.distance > 0
      · rw [if_pos hgt, if_pos hgt, if_pos hgt]
      · rw [if_neg hgt, if_neg hgt, if_neg hgt]
    have hNewEdge : ∀ (pe' : List (PathElem × TEdge)) (E : TEdge),
        pe' = aset st.pathElemToEdge y E →
        E = TEdge.mk fromKey toKey →
        ∀ x n', x ∈ done ++ [y] → focalSideNeighbor paths x = some n' →
          n' ∈ done ++ [y] ∧ ∃ vx vn',
            alookup (aset st.pathElemToVertex y vertex) x = some vx ∧
            alookup (aset st.pathElemToVertex y vertex) n' = some vn' ∧
            alookup pe' x
              = some (if x.distance > 0 then TEdge.mk vn'.key vx.key
                  else TEdge.mk vx.key vn'.key) := by
      intro pe' E hpe' hE x n' hx hxn
      rcases List.mem_append.mp hx with hxdone | hxy
      · refine hOldEdge pe' ?_ x n' hxdone hxn
        intro x' hx'
        rw [hpe', alookup_aset_ne _ _ _ _ hx']
      · rw [List.mem_singleton] at hxy
        subst hxy
        rw [hn] at hxn
        cases hxn
        refine ⟨List.mem_append.mpr (Or.inl hndone), vertex, vn, hvy2, hvn2, ?_⟩
        rw [hpe', alookup_aset_self, hE]
        rw [hEdgeVal (TEdge.mk fromKey toKey) rfl]
    cases he : alookup st.edgesById (fromKey, toKey) with
    | none =>
      refine ⟨_, rfl, ?_, ?_, ?_, ?_, ?_, ?_⟩
      · intro x
        dsimp only
        rw [hpv]
        exact hdom x
      · intro x v
        dsimp only
        rw [hpv]
        exact hkeyOf x v
      · intro k hk
        dsimp only at hk ⊢
        exact hsync1 k hk
      · intro k v hkv
        dsimp only at hkv
        exact hvkey1 k v hkv
      · intro pr e hpr
        dsimp only at hpr
        by_cases hp : pr = (fromKey, toKey)
        · subst hp
          rw [alookup_aset_self] at hpr
          cases hpr
          rfl
        · rw [alookup_aset_ne _ _ _ _ hp] at hpr
          exact hinv.edgeWF pr e hpr
      · intro x n' hx hxn
        dsimp only
        rw [hpv]
        exact hNewEdge _ (TEdge.mk fromKey toKey) rfl rfl x n' hx hxn
    | some existingEdge =>
      have hexval : existingEdge = TEdge.mk fromKey toKey := hinv.edgeWF _ _ he
      refine ⟨_, rfl, ?_, ?_, ?_, ?_, ?_, ?_⟩
      · intro x
        dsimp only
        rw [hpv]
        exact hdom x
      · intro x v
        dsimp only
        rw [hpv]
        exact hkeyOf x v
      · intro k hk
        dsimp only at hk ⊢
        exact hsync1 k hk
      · intro k v hkv
        dsimp only at hkv
        exact hvkey1 k v hkv
      · intro pr e hpr
        dsimp only at hpr
        rw [hei] at hpr
        exact hinv.edgeWF pr e hpr
      · intro x n' hx hxn
        dsimp only
        rw [hpv]
        exact hNewEdge _ existingEdge rfl hexval x n' hx hxn

theorem processAll_ok (paths : List TDdgPath) (hasher : PathElem → String) (showOp : Bool) :
    ∀ (todo done : List PathElem) (st : GraphState),
      GraphInv paths hasher st done →
      (∀ x ∈ todo, x ∉ done) →
      todo.Nodup →
      (∀ l₁ x l₂, todo = l₁ ++ x :: l₂ →
        ∀ n, focalSideNeighbor paths x = some n → n ∈ done ∨ n ∈ l₁) →
      ∃ st', processAll paths hasher showOp st todo = .ok st' ∧
        GraphInv paths hasher st' (done ++ todo) := by
  intro todo
  induction todo with
  | nil =>
    intro done st hinv _ _ _
    exact ⟨st, rfl, by rw [List.append_nil]; exact hinv⟩
  | cons x rest ih =>
    intro done st hinv hfresh hnd hsplit
    have hfsnx : ∀ n, focalSideNeighbor paths x = some n → n ∈ done := by
      intro n hn
      rcases hsplit [] x rest rfl n hn with h | h
      · exact h
      · exact absurd h (List.not_mem_nil n)
    obtain ⟨st1, hstep, hinv1⟩ :=
      processElem_ok paths hasher showOp st done x hinv
        (hfresh x (List.mem_cons_self x rest)) hfsnx
    have hfresh1 : ∀ z ∈ rest, z ∉ done ++ [x] := by
      intro z hz hmem
      rcases List.mem_append.mp hmem with h | h
      · exact hfresh z (List.mem_cons_of_mem x hz) h
      · rw [List.mem_singleton] at h
        exact (List.nodup_cons.mp hnd).1 (h ▸ hz)
    have hsplit1 : ∀ l₁ z l₂, rest = l₁ ++ z :: l₂ →
        ∀ n, focalSideNeighbor paths z = some n → n ∈ done ++ [x] ∨ n ∈ l₁ := by
      intro l₁ z l₂ hrest n hn
      rcases hsplit (x :: l₁) z l₂ (by rw [hrest]; rfl) n hn with h | h
      · exact Or.inl (List.mem_append.mpr (Or.inl h))
      · rcases List.mem_cons.mp h with h | h
        · exact Or.inl (List.mem_append.mpr (Or.inr (by rw [h]; exact List.mem_singleton_self x)))
        · exact Or.inr h
    obtain ⟨st', hrest, hinv'⟩ :=
      ih (done ++ [x]) st1 hinv1 hfresh1 (List.nodup_cons.mp hnd).2 hsplit1
    refine ⟨st', ?_, ?_⟩
    · unfold processAll
      rw [hstep]
      exact hrest
    · rw [List.append_assoc] at hinv'
      simpa using hinv'

theorem transform_fsn_before {payload : TDdgPayload} {focal : FocalSelector} {m : TDdgModel}
    (h : transformDdgData payload focal = .ok m) :
    ∀ l₁ x l₂, m.visIdxToPathElem = l₁ ++ x :: l₂ →
      ∀ n, focalSideNeighbor m.paths x = some n → n ∈ l₁ := by
  intro l₁ x l₂ hsplit n hn
  have hwf := wfPaths_transform _ _ _ h
  have hxmem : x ∈ m.visIdxToPathElem := by
    rw [hsplit]
    exact List.mem_append.mpr (Or.inr (List.mem_cons_self x l₂))
  have hxall : x ∈ allElems m.paths := (transform_visIdx_perm h).mem_iff.mp hxmem
  obtain ⟨hnall, habs, hne0⟩ := focalSideNeighbor_spec hwf hxall hn
  have hnmem : n ∈ m.visIdxToPathElem := (transform_visIdx_perm h).mem_iff.mpr hnall
  rw [hsplit] at hnmem
  rcases List.mem_append.mp hnmem with h1 | h1
  · exact h1
  · exfalso
    have hp := transform_pairwise_rank h
    rw [hsplit] at hp
    have htail := (List.pairwise_append.mp hp).2.1
    rcases List.mem_cons.mp h1 with rfl | h2
    · omega
    · have hrel := (List.pairwise_cons.mp htail).1 n h2
      have := natAbs_le_of_rankD_le hrel
      omega

theorem findOrCreateVertex_cases (hasher : PathElem → String) (showOp : Bool)
    (st : GraphState) (y : PathElem) :
    (∃ err, findOrCreateVertex hasher showOp st y = .error err) ∨
    ∃ v st1, findOrCreateVertex hasher showOp st y = .ok (v, st1) ∧
      st1.pathElemToVertex = st.pathElemToVertex := by
  unfold findOrCreateVertex
  cases hv : alookup st.vertices (hasher y) with
  | none =>
    simp only [hv]
    right
    exact ⟨_, _, rfl, rfl⟩
  | some vertex =>
    simp only [hv]
    cases hp : alookup st.vertexToPathElems (hasher y) with
    | none => left; exact ⟨_, rfl⟩
    | some pes => right; exact ⟨_, _, rfl, rfl⟩

theorem processElem_error_at (paths : List TDdgPath) (hasher : PathElem → String)
    (showOp : Bool) (st : GraphState) (e n : PathElem)
    (hn : focalSideNeighbor paths e = some n) (hne : n ≠ e)
    (hmiss : (alookup st.pathElemToVertex n).isSome = false) :
    ∃ err, processElem paths hasher showOp st e = .error err := by
  unfold processElem
  rcases findOrCreateVertex_cases hasher showOp st e with ⟨err, herr⟩ | ⟨v, st1, hok, hpv⟩
  · rw [herr]
    exact ⟨err, rfl⟩
  · rw [hok]
    unfold connectElem
    rw [hn]
    dsimp only
    rw [show alookup (aset st1.pathElemToVertex e v) n = none from by
      rw [alookup_aset_ne _ _ _ _ hne, hpv]
      exact Option.not_isSome_iff_eq_none.mp (by simp [hmiss])]
    exact ⟨_, rfl⟩

theorem processElem_ok_pv (paths : List TDdgPath) (hasher : PathElem → String)
    (showOp : Bool) (st : GraphState) (y : PathElem) (st' : GraphState)
    (h : processElem paths hasher showOp st y = .ok st') :
    ∃ v, st'.pathElemToVertex = aset st.pathElemToVertex y v := by
  unfold processElem at h
  rcases findOrCreateVertex_cases hasher showOp st y with ⟨err, herr⟩ | ⟨v, st1, hok, hpv⟩
  · rw [herr] at h
    cases h
  · rw [hok] at h
    unfold connectElem at h
    cases hn : focalSideNeighbor paths y with
    | none =>
      rw [hn] at h
      injection h with h
      subst h
      exact ⟨v, by dsimp only; rw [hpv]⟩
    | some w =>
      rw [hn] at h
      dsimp only at h
      cases hw : alookup (aset st1.pathElemToVertex y v) w with
      | none =>
        rw [hw] at h
        cases h
      | some vw =>
        rw [hw] at h
        dsimp only at h
        cases hEd : alookup st1.edgesById
            (if y.distance > 0 then vw.key else v.key,
              if y.distance > 0 then v.key else vw.key) with
        | none =>
          rw [hEd] at h
          injection h with h
          subst h
          exact ⟨v, by dsimp only; rw [hpv]⟩
        | some ed =>
          rw [hEd] at h
          injection h with h
          subst h
          exact ⟨v, by dsimp only; rw [hpv]⟩

theorem processAll_error (paths : List TDdgPath) (hasher : PathElem → String) (showOp : Bool) :
    ∀ (l₁ : List PathElem) (st : GraphState) (e : PathElem) (l₂ : List PathElem) (n : PathElem),
      focalSideNeighbor paths e = some n → n ≠ e → n ∉ l₁ →
      (alookup st.pathElemToVertex n).isSome = false →
      ∃ err, processAll paths hasher showOp st (l₁ ++ e :: l₂) = .error err := by
  intro l₁
  induction l₁ with
  | nil =>
    intro st e l₂ n hn hne _ hmiss
    obtain ⟨err, herr⟩ := processElem_error_at paths hasher showOp st e n hn hne hmiss
    refine ⟨err, ?_⟩
    rw [List.nil_append]
    unfold processAll
    rw [herr]
  | cons x rest ih =>
    intro st e l₂ n hn hne hnotin hmiss
    cases hx : processElem paths hasher showOp st x with
    | error err =>
      refine ⟨err, ?_⟩
      rw [List.cons_append]
      unfold processAll
      rw [hx]
    | ok st1 =>
      obtain ⟨v, hpv⟩ := processElem_ok_pv paths hasher showOp st x st1 hx
      have hnx : n ≠ x := fun hc => hnotin (by rw [hc]; exact List.mem_cons_self x rest)
      have hmiss1 : (alookup st1.pathElemToVertex n).isSome = false := by
        rw [hpv, alookup_aset_ne _ _ _ _ hnx]
        exact hmiss
      obtain ⟨err, herr⟩ :=
        ih st1 e l₂ n hn hne (fun hc => hnotin (List.mem_cons_of_mem x hc)) hmiss1
      refine ⟨err, ?_⟩
      rw [List.cons_append]
      unfold processAll
      rw [hx]
      exact herr

theorem buildGraphWith_ok (paths : List TDdgPath) (hasher : PathElem → String)
    (showOp : Bool) (visList : List PathElem)
    (hnd : visList.Nodup)
    (hsplit : ∀ l₁ x l₂, visList = l₁ ++ x :: l₂ →
      ∀ n, focalSideNeighbor paths x = some n → n ∈ l₁) :
    ∃ g, buildGraphWith paths hasher showOp visList = .ok g ∧
      g.paths = paths ∧ g.showOp = showOp ∧ g.visIdxToPathElem = visList ∧
      (∀ x, (alookup g.pathElemToVertex x).isSome = true ↔ x ∈ visList) ∧
      (∀ x v, alookup g.pathElemToVertex x = some v → v.key = hasher x) ∧
      (∀ x n, x ∈ visList → focalSideNeighbor paths x = some n →
        n ∈ visList ∧ ∃ vx vn, alookup g.pathElemToVertex x = some vx ∧
          alookup g.pathElemToVertex n = some vn ∧
          alookup g.pathElemToEdge x
            = some (if x.distance > 0 then TEdge.mk vn.key vx.key
                else TEdge.mk vx.key vn.key)) := by
  obtain ⟨st', hrun, hinv⟩ :=
    processAll_ok paths hasher showOp visList [] GraphState.empty
      (graphInv_empty paths hasher)
      (fun x _ => List.not_mem_nil x)
      hnd
      (fun l₁ x l₂ hs n hn => Or.inr (hsplit l₁ x l₂ hs n hn))
  rw [List.nil_append] at hinv
  refine ⟨{ showOp := showOp, paths := paths, visIdxToPathElem := visList,
            vertices := st'.vertices, vertexToPathElems := st'.vertexToPathElems,
            pathElemToVertex := st'.pathElemToVertex,
            pathElemToEdge := st'.pathElemToEdge },
    ?_, rfl, rfl, rfl, ?_, ?_, ?_⟩
  · unfold buildGraphWith
    rw [hrun]
    rfl
  · exact hinv.domV
  · exact hinv.keyOf
  · exact hinv.edgeOf

/-! ## C5: connectivity of the constructor pass -/

/-- **C5**: the `DisconnectedPathElem` branch is unreachable on an unmodified
transform result — constructing a GraphModel from it succeeds for every
density, because each PathElem's focal-side neighbor is processed (and given a
vertex) earlier in visibility-index order.  Conversely, running the
constructor pass on a list in which some retained element's focal-side
neighbor does not occur before it (removed, or moved after) throws. -/
theorem graph_construction_connectivity :
    (∀ (payload : TDdgPayload) (focal : FocalSelector) (density : EDdgDensity)
        (showOp : Bool),
      (∀ path ∈ payload, ∃ en ∈ path, matchesFocal focal en = true) →
      ∃ m g, transformDdgData payload focal = .ok m ∧
        buildGraphModel density showOp m.paths m.visIdxToPathElem = .ok g) ∧
    (∀ (paths : List TDdgPath) (hasher : PathElem → String) (showOp : Bool)
        (l₁ l₂ : List PathElem) (e n : PathElem),
      focalSideNeighbor paths e = some n → n ≠ e → n ∉ l₁ →
      ∃ err, buildGraphWith paths hasher showOp (l₁ ++ e :: l₂) = .error err) := by
  constructor
  · intro payload focal density showOp hall
    obtain ⟨m, hm⟩ := (transform_isOk_iff payload focal).mpr hall
    obtain ⟨g, hg, _⟩ :=
      buildGraphWith_ok m.paths (vertexKey m.paths density showOp) showOp
        m.visIdxToPathElem (transform_visIdx_nodup hm) (transform_fsn_before hm)
    exact ⟨m, g, hm, hg⟩
  · intro paths hasher showOp l₁ l₂ e n hn hne hnotin
    obtain ⟨err, herr⟩ :=
      processAll_error paths hasher showOp l₁ GraphState.empty e l₂ n hn hne hnotin rfl
    refine ⟨err, ?_⟩
    unfold buildGraphWith
    rw [herr]
    rfl

/-- The parsed paths of the sample payload `[[A, B, C]]` with focal `B`. -/
def sampleModelPaths : List TDdgPath := mkPaths sampleFocalB 0 [[sampleA, sampleB, sampleC]]

/-- The distance `-1` PathElem of the sample model. -/
def sampleElemA : PathElem := ⟨0, 0, 1, "svcA", "opA"⟩

/-- The focal PathElem of the sample model. -/
def sampleElemB : PathElem := ⟨0, 1, 1, "svcB", "opB"⟩

/-- The distance `+1` PathElem of the sample model. -/
def sampleElemC : PathElem := ⟨0, 2, 1, "svcC", "opC"⟩

/-- Witness for C5: the sample payload builds for `MostConcise`, and dropping
the focal element `B` from the visibility list (leaving `[C, A]`) makes the
constructor throw, since `B` is `C`'s focal-side neighbor. -/
theorem graph_construction_connectivity_witness :
    (∀ path ∈ samplePayload, ∃ en ∈ path, matchesFocal sampleFocalB en = true) ∧
    (∃ m g, transformDdgData samplePayload sampleFocalB = .ok m ∧
      buildGraphModel .MostConcise true m.paths m.visIdxToPathElem = .ok g) ∧
    focalSideNeighbor sampleModelPaths sampleElemC = some sampleElemB ∧
    (∃ err, buildGraphWith sampleModelPaths
        (vertexKey sampleModelPaths .MostConcise true) true
        ([] ++ sampleElemC :: [sampleElemA]) = .error err) :=
  ⟨by decide,
    graph_construction_connectivity.1 samplePayload sampleFocalB .MostConcise true (by decide),
    by decide,
    graph_construction_connectivity.2 sampleModelPaths
      (vertexKey sampleModelPaths .MostConcise true) true [] [sampleElemA]
      sampleElemC sampleElemB (by decide) (by decide) (by decide)⟩

/-! ## C6: the direction of recorded edges -/

/-- **C6 (counterexample)**: the claim says a positive-distance element's edge
points from the side farther from the focal node toward the nearer side.  In
the sample graph the distance `+1` element `C` (own vertex key `svcC::opC`,
focal-side neighbor `B` with key `svcB::opB`) gets the edge
`{ from: svcB::opB, to: svcC::opC }` — from the *nearer* side to the
*farther* side — not the claimed `{ from: svcC::opC, to: svcB::opB }`. -/
theorem graph_edge_direction_counterexample :
    sampleElemC.distance > 0 ∧
    (buildGraphModel .MostConcise true sampleModelPaths
        (visOrder (allElems sampleModelPaths))).map
        (fun g => alookup g.pathElemToEdge sampleElemC)
      = .ok (some (TEdge.mk "svcB::opB" "svcC::opC")) ∧
    (buildGraphModel .MostConcise true sampleModelPaths
        (visOrder (allElems sampleModelPaths))).map
        (fun g => (alookup g.pathElemToVertex sampleElemC).map TDdgVertex.key)
      = .ok (some "svcC::opC") ∧
    (buildGraphModel .MostConcise true sampleModelPaths
        (visOrder (allElems sampleModelPaths))).map
        (fun g => (alookup g.pathElemToVertex sampleElemB).map TDdgVertex.key)
      = .ok (some "svcB::opB") ∧
    focalSideNeighbor sampleModelPaths sampleElemC = some sampleElemB ∧
    TEdge.mk "svcB::opB" "svcC::opC" ≠ TEdge.mk "svcC::opC" "svcB::opB" := by
  refine ⟨by decide, by decide, by decide, by decide, by decide, by decide⟩

/-- **C6 (amended)**: for every non-focal PathElem of a graph built from an
unmodified transform result, the recorded edge is directed from the side
*nearer* the focal node toward the side *farther* from it when the element's
distance is positive, and the reverse when the distance is negative (the
opposite orientation of the one claimed). -/
theorem graph_edge_direction
    (payload : TDdgPayload) (focal : FocalSelector) (density : EDdgDensity) (showOp : Bool)
    (hall : ∀ path ∈ payload, ∃ en ∈ path, matchesFocal focal en = true) :
    ∃ m g, transformDdgData payload focal = .ok m ∧
      buildGraphModel density showOp m.paths m.visIdxToPathElem = .ok g ∧
      ∀ e n, e ∈ g.visIdxToPathElem → focalSideNeighbor g.paths e = some n →
        ∃ ve vn, alookup g.pathElemToVertex e = some ve ∧
          alookup g.pathElemToVertex n = some vn ∧
          (e.distance > 0 → alookup g.pathElemToEdge e = some (TEdge.mk vn.key ve.key)) ∧
          (e.distance < 0 → alookup g.pathElemToEdge e = some (TEdge.mk ve.key vn.key)) := by
  obtain ⟨m, hm⟩ := (transform_isOk_iff payload focal).mpr hall
  obtain ⟨g, hg, hgp, _, hgv, _, _, hedge⟩ :=
    buildGraphWith_ok m.paths (vertexKey m.paths density showOp) showOp
      m.visIdxToPathElem (transform_visIdx_nodup hm) (transform_fsn_before hm)
  refine ⟨m, g, hm, hg, ?_⟩
  intro e n he hn
  rw [hgv] at he
  rw [hgp] at hn
  obtain ⟨_, ve, vn, hve, hvn, hed⟩ := hedge e n he hn
  refine ⟨ve, vn, hve, hvn, ?_, ?_⟩
  · intro hpos
    rw [hed, if_pos hpos]
  · intro hneg
    rw [hed, if_neg (by omega)]

/-- Witness for the amended C6 at the sample payload. -/
theorem graph_edge_direction_witness :
    (∀ path ∈ samplePayload, ∃ en ∈ path, matchesFocal sampleFocalB en = true) ∧
    ∃ m g, transformDdgData samplePayload sampleFocalB = .ok m ∧
      buildGraphModel .MostConcise true m.paths m.visIdxToPathElem = .ok g ∧
      ∀ e n, e ∈ g.visIdxToPathElem → focalSideNeighbor g.paths e = some n →
        ∃ ve vn, alookup g.pathElemToVertex e = some ve ∧
          alookup g.pathElemToVertex n = some vn ∧
          (e.distance > 0 → alookup g.pathElemToEdge e = some (TEdge.mk vn.key ve.key)) ∧
          (e.distance < 0 → alookup g.pathElemToEdge e = some (TEdge.mk ve.key vn.key)) :=
  ⟨by decide, graph_edge_direction samplePayload sampleFocalB .MostConcise true (by decide)⟩

/-! ## C8: the write-once visibility index -/

/-- **C8**: reading a PathElem's `visibilityIdx` before it has been set
throws `VisibilityIndexUnset`; setting it when a value is already stored
throws `VisibilityIndexAlreadySet` and — the setter being a pure function of
the slot — the stored index is unchanged (reading a slot holding `v` returns
`v` whether or not a failed second set was attempted); after one successful
set of `v`, reading returns exactly `v`. -/
theorem visibilityIdx_write_once :
    VisSlot.getIdx ⟨none⟩ = .error .VisibilityIndexUnset ∧
    ∀ v w : Nat,
      VisSlot.setIdx ⟨none⟩ v = .ok ⟨some v⟩ ∧
      VisSlot.getIdx ⟨some v⟩ = .ok v ∧
      VisSlot.setIdx ⟨some v⟩ w = .error .VisibilityIndexAlreadySet :=
  ⟨rfl, fun _ _ => ⟨rfl, rfl, rfl⟩⟩

/-! ## C4: the codec round trip -/

theorem sort_eq_filter_range (S : Finset Nat) (bound : Nat)
    (hb : ∀ i ∈ S, i < bound) :
    S.sort (· ≤ ·) = (List.range bound).filter (fun i => decide (i ∈ S)) := by
  have hperm : (S.sort (· ≤ ·)).Perm ((List.range bound).filter (fun i => decide (i ∈ S))) := by
    rw [List.perm_ext_iff_of_nodup (Finset.sort_nodup _ S)
      ((List.nodup_range bound).filter _)]
    intro a
    rw [Finset.mem_sort, List.mem_filter, List.mem_range]
    constructor
    · intro ha
      exact ⟨hb a ha, by simpa using ha⟩
    · rintro ⟨_, ha⟩
      simpa using ha
  exact List.eq_of_perm_of_sorted hperm (Finset.sort_sorted _ S)
    (((List.pairwise_lt_range bound).filter _).imp le_of_lt)

theorem decode_encode_sort (S : Finset Nat) :
    decode (encode S) = .ok (S.sort (· ≤ ·)) := by
  have hdata : (encode S).data
        = (List.range (encodeBound S)).map (fun i => if i ∈ S then '1' else '0') := rfl
  have hall : (encode S).data.all (fun c => c == '0' || c == '1') = true := by
    rw [hdata, List.all_eq_true]
    intro c hc
    obtain ⟨i, _, hi⟩ := List.mem_map.mp hc
    by_cases hmem : i ∈ S
    · rw [if_pos hmem] at hi
      rw [← hi]
      rfl
    · rw [if_neg hmem] at hi
      rw [← hi]
      rfl
  unfold decode
  rw [if_pos hall]
  congr 1
  have hlen : (encode S).data.length = encodeBound S := by
    rw [hdata, List.length_map, List.length_range]
  have hbound : ∀ i ∈ S, i < encodeBound S := by
    intro i hi
    unfold encodeBound
    rw [dif_pos ⟨i, hi⟩]
    have := S.le_max' i hi
    omega
  rw [hlen, sort_eq_filter_range S (encodeBound S) hbound]
  apply List.filter_congr
  intro i hi
  rw [List.mem_range] at hi
  rw [hdata, List.get?_map, List.get?_range hi]
  by_cases hmem : i ∈ S
  · simp [hmem]
  · simp [hmem]

/-- **C4**: for every finite set `S` of non-negative integers,
`decode (encode S)` succeeds and returns exactly the members of `S` (as the
duplicate-free ascending list `S.sort`), and the empty set encodes to the
fixed canonical empty token `""`. -/
theorem codec_round_trip :
    (∀ S : Finset Nat, decode (encode S) = .ok (S.sort (· ≤ ·)) ∧
      (S.sort (· ≤ ·)).Nodup ∧ (∀ n, n ∈ S.sort (· ≤ ·) ↔ n ∈ S)) ∧
    encode ∅ = "" :=
  ⟨fun S => ⟨decode_encode_sort S, Finset.sort_nodup _ S, fun _ => Finset.mem_sort _⟩, rfl⟩

/-! ## getVisible machinery -/

theorem visFold_ok (g : GraphModel) :
    ∀ (elems : List PathElem) (es : List TEdge) (vs : List TDdgVertex),
      (∀ e ∈ elems, (alookup g.pathElemToVertex e).isSome = true) →
      ∃ es' vs', visFold g (es, vs) elems = .ok (es', vs') ∧
        (∀ ed, ed ∈ es' ↔ ed ∈ es ∨ ∃ e ∈ elems, alookup g.pathElemToEdge e = some ed) ∧
        (∀ v, v ∈ vs' ↔ v ∈ vs ∨ ∃ e ∈ elems, alookup g.pathElemToVertex e = some v) ∧
        (es.Nodup → es'.Nodup) ∧ (vs.Nodup → vs'.Nodup) := by
  intro elems
  induction elems with
  | nil =>
    intro es vs _
    refine ⟨es, vs, rfl, ?_, ?_, id, id⟩
    · intro ed; simp
    · intro v; simp
  | cons e rest ih =>
    intro es vs hsome
    obtain ⟨vertex, hvertex⟩ :=
      Option.isSome_iff_exists.mp (hsome e (List.mem_cons_self e rest))
    have hrest : ∀ e' ∈ rest, (alookup g.pathElemToVertex e').isSome = true :=
      fun e' he' => hsome e' (List.mem_cons_of_mem e he')
    set edges' := (match alookup g.pathElemToEdge e with
      | some edge => insertDedup es edge
      | none => es) with hedges'
    obtain ⟨es', vs', hrun, hes, hvs, hnde, hndv⟩ :=
      ih edges' (insertDedup vs vertex) hrest
    have hedmem : ∀ ed, ed ∈ edges' ↔ ed ∈ es ∨ alookup g.pathElemToEdge e = some ed := by
      intro ed
      rw [hedges']
      cases hE : alookup g.pathElemToEdge e with
      | none =>
        constructor
        · exact Or.inl
        · rintro (h | h)
          · exact h
          · cases h
      | some E =>
        rw [mem_insertDedup]
        constructor
        · rintro (h | rfl)
          · exact Or.inl h
          · exact Or.inr rfl
        · rintro (h | h)
          · exact Or.inl h
          · injection h with h
            exact Or.inr h.symm
    have hednd : es.Nodup → edges'.Nodup := by
      intro hnd
      rw [hedges']
      cases alookup g.pathElemToEdge e with
      | none => exact hnd
      | some E => exact nodup_insertDedup E hnd
    refine ⟨es', vs', ?_, ?_, ?_, fun h => hnde (hednd h), fun h => hndv (nodup_insertDedup _ h)⟩
    · rw [show visFold g (es, vs) (e :: rest)
          = (match alookup g.pathElemToVertex e with
             | some vertex => visFold g (edges', insertDedup vs vertex) rest
             | none => .error .PathElemAbsent) from rfl, hvertex]
      exact hrun
    · intro ed
      rw [hes ed, hedmem ed]
      constructor
      · rintro ((h | h) | ⟨e', he', hl⟩)
        · exact Or.inl h
        · exact Or.inr ⟨e, List.mem_cons_self e rest, h⟩
        · exact Or.inr ⟨e', List.mem_cons_of_mem e he', hl⟩
      · rintro (h | ⟨e', he', hl⟩)
        · exact Or.inl (Or.inl h)
        · rcases List.mem_cons.mp he' with rfl | he''
          · exact Or.inl (Or.inr hl)
          · exact Or.inr ⟨e', he'', hl⟩
    · intro v
      rw [hvs v, mem_insertDedup]
      constructor
      · rintro ((h | rfl) | ⟨e', he', hl⟩)
        · exact Or.inl h
        · exact Or.inr ⟨e, List.mem_cons_self e rest, hvertex⟩
        · exact Or.inr ⟨e', List.mem_cons_of_mem e he', hl⟩
      · rintro (h | ⟨e', he', hl⟩)
        · exact Or.inl (Or.inl h)
        · rcases List.mem_cons.mp he' with rfl | he''
          · rw [hvertex] at hl
            injection hl with hl
            exact Or.inl (Or.inr hl.symm)
          · exact Or.inr ⟨e', he'', hl⟩

theorem sort_filter_lt (S : Finset Nat) (N : Nat) :
    (S.filter (· < N)).sort (· ≤ ·)
      = (S.sort (· ≤ ·)).filter (fun i => decide (i < N)) := by
  refine List.eq_of_perm_of_sorted ?_ (Finset.sort_sorted _ _)
    ((Finset.sort_sorted _ S).filter _)
  rw [List.perm_ext_iff_of_nodup (Finset.sort_nodup _ _)
    ((Finset.sort_nodup _ S).filter _)]
  intro a
  rw [Finset.mem_sort, List.mem_filter, Finset.mem_filter, Finset.mem_sort]
  simp

theorem filterMap_get?_filter_lt (L : List PathElem) :
    ∀ l : List Nat, l.filterMap (fun i => L.get? i)
      = (l.filter (fun i => decide (i < L.length))).filterMap (fun i => L.get? i) := by
  intro l
  induction l with
  | nil => rfl
  | cons i rest ih =>
    by_cases hi : i < L.length
    · rw [List.filter_cons_of_pos (by simpa using hi), List.filterMap_cons,
        List.filterMap_cons, ih]
    · rw [List.filter_cons_of_neg (by simpa using hi), List.filterMap_cons,
        List.get?_eq_none.mpr (by omega), ih]

theorem getVisiblePathElems_encode (g : GraphModel) (S : Finset Nat) :
    g.getVisiblePathElems (some (encode S))
      = .ok ((S.sort (· ≤ ·)).filterMap (fun i => g.visIdxToPathElem.get? i)) := by
  unfold GraphModel.getVisiblePathElems
  dsimp only
  rw [decode_encode_sort]
  show Except.ok
      (((S.sort (· ≤ ·)).map (fun i => g.visIdxToPathElem.get? i)).filterMap id)
    = Except.ok ((S.sort (· ≤ ·)).filterMap (fun i => g.visIdxToPathElem.get? i))
  rw [List.filterMap_map]
  rfl

theorem getVisible_encode (g : GraphModel)
    (hdom : ∀ e ∈ g.visIdxToPathElem, (alookup g.pathElemToVertex e).isSome = true)
    (S : Finset Nat) :
    ∃ res : VisibleResult,
      g.getVisible (some (encode S)) = .ok res ∧
      (∀ ed, ed ∈ res.edges ↔ ∃ e ∈ (S.sort (· ≤ ·)).filterMap
          (fun i => g.visIdxToPathElem.get? i), alookup g.pathElemToEdge e = some ed) ∧
      (∀ v, v ∈ res.vertices ↔ ∃ e ∈ (S.sort (· ≤ ·)).filterMap
          (fun i => g.visIdxToPathElem.get? i), alookup g.pathElemToVertex e = some v) ∧
      res.edges.Nodup ∧ res.vertices.Nodup := by
  set elems := (S.sort (· ≤ ·)).filterMap (fun i => g.visIdxToPathElem.get? i) with helems
  have hmem : ∀ e ∈ elems, (alookup g.pathElemToVertex e).isSome = true := by
    intro e he
    rw [helems] at he
    obtain ⟨i, _, hi⟩ := List.mem_filterMap.mp he
    exact hdom e (List.get?_mem hi)
  obtain ⟨es', vs', hrun, hes, hvs, hnde, hndv⟩ := visFold_ok g elems [] [] hmem
  refine ⟨⟨es', vs'⟩, ?_, ?_, ?_, hnde List.nodup_nil, hndv List.nodup_nil⟩
  · unfold GraphModel.getVisible
    rw [getVisiblePathElems_encode]
    show (visFold g ([], []) elems).bind
        (fun acc => Except.ok (VisibleResult.mk acc.1 acc.2))
      = Except.ok (VisibleResult.mk es' vs')
    rw [hrun]
    rfl
  · intro ed
    rw [show (VisibleResult.mk es' vs').edges = es' from rfl, hes ed]
    simp
  · intro v
    rw [show (VisibleResult.mk es' vs').vertices = vs' from rfl, hvs v]
    simp

/-! ## C9: getVisible on an encoded set -/

/-- **C9**: for a GraphModel built from an unmodified transform result and any
finite set `S` of non-negative integers, `getVisible` applied to `encode S`
does not fail; it returns the deduplicated vertices and edges of exactly the
PathElems whose indices are the in-range members of `S`, and the out-of-range
members of `S` are silently dropped — encoding `S` and encoding
`S ∩ [0, N)` give the same result. -/
theorem getVisible_encoded_set_spec
    (payload : TDdgPayload) (focal : FocalSelector) (density : EDdgDensity) (showOp : Bool)
    (hall : ∀ path ∈ payload, ∃ en ∈ path, matchesFocal focal en = true) :
    ∃ m g, transformDdgData payload focal = .ok m ∧
      buildGraphModel density showOp m.paths m.visIdxToPathElem = .ok g ∧
      ∀ S : Finset Nat, ∃ res : VisibleResult,
        g.getVisible (some (encode S)) = .ok res ∧
        g.getVisible (some (encode (S.filter (· < g.visIdxToPathElem.length)))) = .ok res ∧
        res.vertices.Nodup ∧ res.edges.Nodup ∧
        (∀ v, v ∈ res.vertices ↔ ∃ i ∈ S, ∃ e, g.visIdxToPathElem.get? i = some e ∧
            alookup g.pathElemToVertex e = some v) ∧
        (∀ ed, ed ∈ res.edges ↔ ∃ i ∈ S, ∃ e, g.visIdxToPathElem.get? i = some e ∧
            alookup g.pathElemToEdge e = some ed) := by
  obtain ⟨m, hm⟩ := (transform_isOk_iff payload focal).mpr hall
  obtain ⟨g, hg, _, _, hgl, hdomV, _, _⟩ :=
    buildGraphWith_ok m.paths (vertexKey m.paths density showOp) showOp
      m.visIdxToPathElem (transform_visIdx_nodup hm) (transform_fsn_before hm)
  refine ⟨m, g, hm, hg, ?_⟩
  intro S
  have hdom : ∀ e ∈ g.visIdxToPathElem, (alookup g.pathElemToVertex e).isSome = true := by
    intro e he
    rw [hdomV]
    rw [hgl] at he
    exact he
  obtain ⟨res, hres, hes, hvs, hnde, hndv⟩ := getVisible_encode g hdom S
  have hsame : ((S.filter (· < g.visIdxToPathElem.length)).sort (· ≤ ·)).filterMap
        (fun i => g.visIdxToPathElem.get? i)
      = (S.sort (· ≤ ·)).filterMap (fun i => g.visIdxToPathElem.get? i) := by
    rw [sort_filter_lt, ← filterMap_get?_filter_lt]
  obtain ⟨res2, hres2, hes2, hvs2, _, _⟩ := getVisible_encode g hdom
    (S.filter (· < g.visIdxToPathElem.length))
  have hreseq : res2 = res := by
    have h1 := hres
    have h2 := hres2
    unfold GraphModel.getVisible at h1 h2
    rw [getVisiblePathElems_encode] at h1 h2
    rw [hsame] at h2
    rw [h1] at h2
    injection h2 with h2
    exact h2.symm
  refine ⟨res, hres, hreseq ▸ hres2, hndv, hnde, ?_, ?_⟩
  · intro v
    rw [hvs v]
    constructor
    · rintro ⟨e, he, hl⟩
      obtain ⟨i, hi, hget⟩ := List.mem_filterMap.mp he
      exact ⟨i, (Finset.mem_sort _).mp hi, e, hget, hl⟩
    · rintro ⟨i, hi, e, hget, hl⟩
      exact ⟨e, List.mem_filterMap.mpr ⟨i, (Finset.mem_sort _).mpr hi, hget⟩, hl⟩
  · intro ed
    rw [hes ed]
    constructor
    · rintro ⟨e, he, hl⟩
      obtain ⟨i, hi, hget⟩ := List.mem_filterMap.mp he
      exact ⟨i, (Finset.mem_sort _).mp hi, e, hget, hl⟩
    · rintro ⟨i, hi, e, hget, hl⟩
      exact ⟨e, List.mem_filterMap.mpr ⟨i, (Finset.mem_sort _).mpr hi, hget⟩, hl⟩

/-- Witness for C9 at the sample payload. -/
theorem getVisible_encoded_set_spec_witness :
    (∀ path ∈ samplePayload, ∃ en ∈ path, matchesFocal sampleFocalB en = true) ∧
    ∃ m g, transformDdgData samplePayload sampleFocalB = .ok m ∧
      buildGraphModel .MostConcise true m.paths m.visIdxToPathElem = .ok g ∧
      ∀ S : Finset Nat, ∃ res : VisibleResult,
        g.getVisible (some (encode S)) = .ok res ∧
        g.getVisible (some (encode (S.filter (· < g.visIdxToPathElem.length)))) = .ok res ∧
        res.vertices.Nodup ∧ res.edges.Nodup ∧
        (∀ v, v ∈ res.vertices ↔ ∃ i ∈ S, ∃ e, g.visIdxToPathElem.get? i = some e ∧
            alookup g.pathElemToVertex e = some v) ∧
        (∀ ed, ed ∈ res.edges ↔ ∃ i ∈ S, ∃ e, g.visIdxToPathElem.get? i = some e ∧
            alookup g.pathElemToEdge e = some ed) :=
  ⟨by decide,
    getVisible_encoded_set_spec samplePayload sampleFocalB .MostConcise true (by decide)⟩

/-! ## C10: a query with two consecutive spaces matches every visible vertex -/

theorem splitOnChar_ne_nil (c : Char) : ∀ l, splitOnChar c l ≠ [] := by
  intro l
  cases l with
  | nil => simp [splitOnChar]
  | cons x xs =>
    unfold splitOnChar
    by_cases h : x = c
    · rw [if_pos h]
      simp
    · rw [if_neg h]
      cases hs : splitOnChar c xs with
      | nil => simp
      | cons t ts => simp

theorem splitOnChar_cons (c x : Char) (xs : List Char) :
    splitOnChar c (x :: xs)
      = if x = c then [] :: splitOnChar c xs
        else match splitOnChar c xs with
          | [] => [[x]]
          | t :: ts => (x :: t) :: ts := by
  rw [splitOnChar]

theorem nil_mem_tail_splitOnChar (c : Char) :
    ∀ (a b : List Char), [] ∈ (splitOnChar c (a ++ c :: c :: b)).tail := by
  intro a
  induction a with
  | nil =>
    intro b
    show [] ∈ (splitOnChar c (c :: c :: b)).tail
    rw [splitOnChar_cons, if_pos rfl]
    show [] ∈ splitOnChar c (c :: b)
    rw [splitOnChar_cons, if_pos rfl]
    exact List.mem_cons_self [] _
  | cons x a ih =>
    intro b
    show [] ∈ (splitOnChar c (x :: (a ++ c :: c :: b))).tail
    rw [splitOnChar_cons]
    by_cases h : x = c
    · rw [if_pos h]
      show [] ∈ splitOnChar c (a ++ c :: c :: b)
      exact List.mem_of_mem_tail (ih b)
    · rw [if_neg h]
      cases hs : splitOnChar c (a ++ c :: c :: b) with
      | nil => exact absurd hs (splitOnChar_ne_nil c _)
      | cons t ts =>
        show [] ∈ ts
        have := ih b
        rw [hs] at this
        exact this

theorem tokenMatches_nil (v : TDdgVertex) : tokenMatches v [] = true := by
  unfold tokenMatches
  rw [Bool.or_eq_true]
  exact Or.inl (decide_eq_true List.nil_infix)

/-- **C10**: for a GraphModel built from an unmodified transform result, a
non-empty uiFind query whose trimmed form contains two consecutive spaces
makes `getVisibleUiFindMatches` return *all* visible vertices: splitting on
single spaces turns the double space into an empty token, and the empty
string is a substring of every vertex's service name. -/
theorem uiFind_double_space_matches_all
    (payload : TDdgPayload) (focal : FocalSelector) (density : EDdgDensity) (showOp : Bool)
    (uiFind : String) (visEncoding : Option String)
    (hall : ∀ path ∈ payload, ∃ en ∈ path, matchesFocal focal en = true)
    (hne : uiFind ≠ "")
    (hsp : [' ', ' '] <:+: trimChars uiFind.data) :
    ∃ m g, transformDdgData payload focal = .ok m ∧
      buildGraphModel density showOp m.paths m.visIdxToPathElem = .ok g ∧
      ∀ res, g.getVisible visEncoding = .ok res → res.vertices ≠ [] →
        g.getVisibleUiFindMatches uiFind visEncoding = .ok res.vertices := by
  obtain ⟨m, hm⟩ := (transform_isOk_iff payload focal).mpr hall
  obtain ⟨g, hg, _⟩ :=
    buildGraphWith_ok m.paths (vertexKey m.paths density showOp) showOp
      m.visIdxToPathElem (transform_visIdx_nodup hm) (transform_fsn_before hm)
  refine ⟨m, g, hm, hg, ?_⟩
  intro res hres _
  obtain ⟨s, t, hst⟩ := hsp
  have hmap : (trimChars uiFind.data).map Char.toLower
      = s.map Char.toLower ++ ' ' :: ' ' :: t.map Char.toLower := by
    rw [← hst, List.map_append, List.map_append,
      show [' ', ' '].map Char.toLower = ([' ', ' '] : List Char) from by decide,
      List.append_assoc]
    rfl
  have htok : [] ∈ splitOnChar ' ' ((trimChars uiFind.data).map Char.toLower) := by
    rw [hmap]
    exact List.mem_of_mem_tail
      (nil_mem_tail_splitOnChar ' ' (s.map Char.toLower) (t.map Char.toLower))
  unfold GraphModel.getVisibleUiFindMatches
  rw [if_neg hne, hres]
  show Except.ok (res.vertices.filter
      (fun v => (splitOnChar ' ' ((trimChars uiFind.data).map Char.toLower)).any
        (tokenMatches v)))
    = Except.ok res.vertices
  congr 1
  refine List.filter_eq_self.mpr ?_
  intro v _
  exact List.any_eq_true.mpr ⟨[], htok, tokenMatches_nil v⟩

/-- Witness for C10: the query `"x  y"` (two spaces inside) against the
default two-hop view of the sample graph. -/
theorem uiFind_double_space_matches_all_witness :
    (∀ path ∈ samplePayload, ∃ en ∈ path, matchesFocal sampleFocalB en = true) ∧
    ("x  y" : String) ≠ "" ∧
    ([' ', ' '] <:+: trimChars ("x  y" : String).data) ∧
    ∃ m g, transformDdgData samplePayload sampleFocalB = .ok m ∧
      buildGraphModel .MostConcise true m.paths m.visIdxToPathElem = .ok g ∧
      ∀ res, g.getVisible none = .ok res → res.vertices ≠ [] →
        g.getVisibleUiFindMatches "x  y" none = .ok res.vertices :=
  ⟨by decide, by decide, ⟨['x'], ['y'], by decide⟩,
    uiFind_double_space_matches_all samplePayload sampleFocalB .MostConcise true
      "x  y" none (by decide) (by decide) ⟨['x'], ['y'], by decide⟩⟩

/-- Witness for C7 at the sample payload and at a payload missing the focal
service. -/
theorem transform_missing_focal_iff_and_focalIdx_first_witness :
    ((transformDdgData [[sampleA, sampleC]] sampleFocalB = .error .MissingFocalNode ↔
        ∃ path ∈ ([[sampleA, sampleC]] : TDdgPayload), ∀ en ∈ path,
          matchesFocal sampleFocalB en = false) ∧
      (∀ m, transformDdgData [[sampleA, sampleC]] sampleFocalB = .ok m →
        ∀ i p, m.paths.get? i = some p →
          (∃ e, p.members.get? p.focalIdx = some e ∧
              matchesFocal sampleFocalB ⟨e.service, e.operation⟩ = true) ∧
          (∀ j e, j < p.focalIdx → p.members.get? j = some e →
              matchesFocal sampleFocalB ⟨e.service, e.operation⟩ = false))) ∧
    transformDdgData [[sampleA, sampleC]] sampleFocalB = .error .MissingFocalNode :=
  ⟨transform_missing_focal_iff_and_focalIdx_first [[sampleA, sampleC]] sampleFocalB,
    by decide⟩
